import Mathlib

/-!
Verification of the DL4CV post-processing pipeline specification against a
shallow embedding of `scripts/post_processor/core.py` and
`scripts/post_processor/math_protection.py`.

Python strings are modelled as `String`/`List Char`; each `re.sub` pass is
modelled as an executable left-to-right scanner with the same leftmost,
non-overlapping, lazy-quantifier semantics as the source patterns; the
module-global tables (`MATH_STORE`, `used_ids`, `BIB_INDEX_MAP`) are passed
explicitly.  All recursion is structural (fuel-based where the Python loop
is not structurally decreasing) so that every definition evaluates inside
the kernel.

The file is organised as definitions first, then all lemmas and theorems.
-/

namespace DL4CV

/-! ## Part 1: definitions -/

/-! ### Decimal rendering of counters (Python `f"{n}"`) -/

/-- One decimal digit character; argument is taken modulo 10 by callers. -/
def digChar : Nat → Char
  | 0 => '0' | 1 => '1' | 2 => '2' | 3 => '3' | 4 => '4'
  | 5 => '5' | 6 => '6' | 7 => '7' | 8 => '8' | _ => '9'

/-- Numeric value of a digit character. -/
def digVal (c : Char) : Nat := c.toNat - 48

/-- Fuelled decimal expansion, most-significant digit first. -/
def natDigitsF : Nat → Nat → List Char
  | 0, _ => []
  | f + 1, n => if n < 10 then [digChar n] else natDigitsF f (n / 10) ++ [digChar (n % 10)]

/-- Decimal digit list of `n`, as produced by Python `str(n)`. -/
def natDigits (n : Nat) : List Char := natDigitsF (n + 1) n

/-- Decimal string of `n`, as produced by Python `str(n)` / f-strings. -/
def natRepr (n : Nat) : String := String.mk (natDigits n)

/-- Valuation of a digit list, most-significant first. -/
def evalDigs (l : List Char) : Nat := l.foldl (fun a c => a * 10 + digVal c) 0

/-! ### List-of-char scanning utilities shared by all regex embeddings -/

/-- Boolean prefix test: `leadsWith p s` holds when `p` begins `s`. -/
def leadsWith : List Char → List Char → Bool
  | [], _ => true
  | _ :: _, [] => false
  | p :: ps, c :: cs => p == c && leadsWith ps cs

/-- Index of the first occurrence of `pat` in `s` (regex leftmost search). -/
def subIdx? (pat : List Char) : List Char → Option Nat
  | [] => if leadsWith pat [] then some 0 else none
  | c :: cs =>
    if leadsWith pat (c :: cs) then some 0
    else (subIdx? pat cs).map (fun n => n + 1)

/-- Substring test, as Python `pat in s`. -/
def hasSub (pat s : List Char) : Bool := (subIdx? pat s).isSome

/-- Fuelled non-overlapping occurrence count, as Python `s.count(pat)`. -/
def countNOF (pat : List Char) : Nat → List Char → Nat
  | 0, _ => 0
  | _ + 1, [] => 0
  | f + 1, c :: cs =>
    if leadsWith pat (c :: cs) then 1 + countNOF pat f (List.drop pat.length (c :: cs))
    else countNOF pat f cs

/-- Python `s.count(pat)` for nonempty `pat`. -/
def pyCount (pat s : String) : Nat := countNOF pat.data (s.data.length + 1) s.data

/-- Python whitespace class `\s` restricted to its ASCII members. -/
def isSpc (c : Char) : Bool :=
  c == ' ' || c == '\t' || c == '\n' || c == '\r' || c == Char.ofNat 11 || c == Char.ofNat 12

/-- Python `s.strip()` on char lists. -/
def stripList (l : List Char) : List Char :=
  ((l.dropWhile isSpc).reverse.dropWhile isSpc).reverse

/-- Python `s.strip()`. -/
def pyStrip (s : String) : String := String.mk (stripList s.data)

/-- Python `s.lstrip(cs)`. -/
def pyLstrip (cs : List Char) (s : String) : String :=
  String.mk (s.data.dropWhile (fun c => cs.contains c))

/-- Python `" ".join` on a list of strings. -/
def joinSp : List String → String
  | [] => ""
  | [s] => s
  | s :: rest => s ++ " " ++ joinSp rest

/-- Join a list of strings with a separator, as Python `sep.join`. -/
def joinWith (sep : String) : List String → String
  | [] => ""
  | [s] => s
  | s :: rest => s ++ sep ++ joinWith sep rest

/-- Split a char list at every occurrence of the separator char. -/
def splitOnCh (sep : Char) : List Char → List (List Char)
  | [] => [[]]
  | c :: cs =>
    let r := splitOnCh sep cs
    if c == sep then [] :: r
    else
      match r with
      | [] => [[c]]
      | g :: gs => (c :: g) :: gs

/-! ### MathGuard: `protect_math` / `restore_math`
(`math_protection.py` lines 12-42, duplicated in `core.py` lines 94-122)

Each of the six `re.sub(pattern, repl, content)` calls is embedded as one
left-to-right scan (`subScanF`) driven by a matcher that reports the length
of the regex match anchored at the current position, reproducing `re.sub`'s
leftmost, non-overlapping semantics.  The shared replacement function
`repl` allocates the token `MATH_TOKEN_<n>__` with `n = len(MATH_STORE)`
and records the matched text, which `subScanF` does on its explicit store
argument. -/

/-- Token string `f"MATH_TOKEN_{n}__"` allocated by `protect_math.repl`. -/
def mkToken (n : Nat) : String := "MATH_TOKEN_" ++ natRepr n ++ "__"

/-- The length (anchored at the head of the input) of the leftmost-lazy match
of `opn ++ lazy-anything ++ cls`, used for the `\[(.*?)\]`-style patterns:
the lazy group ends at the first occurrence of the closing delimiter. -/
def matchDelim (opn cls : List Char) : List Char → Option Nat := fun s =>
  if leadsWith opn s then
    match subIdx? cls (List.drop opn.length s) with
    | some i => some (opn.length + i + cls.length)
    | none => none
  else none

/-- Anchored match length for `<tag[^>]*>.*?</tag>`-style patterns
(`<mjx-container...>` and `<math...>`): the opening tag runs to the first
`>` after its head, the lazy body ends at the first closing tag. -/
def matchTag (opnHead clsTag : List Char) : List Char → Option Nat := fun s =>
  if leadsWith opnHead s then
    let rest := List.drop opnHead.length s
    match subIdx? ['>'] rest with
    | some g =>
      match subIdx? clsTag (List.drop (g + 1) rest) with
      | some j => some (opnHead.length + g + 1 + j + clsTag.length)
      | none => none
    | none => none
  else none

/-- Either ASCII quote character (the regex class `["\']`). -/
def isQuote (c : Char) : Bool := c == Char.ofNat 34 || c == Char.ofNat 39

/-- One backtracking attempt for the open tag of the `math/tex` script
pattern with the leading `[^>]*` bound to exactly `a` characters: checks
`type=`, a quote, `math/tex`, the greedy `[^"\']*` run (which can only end
at the first following quote), the closing quote, and `[^>]*>`.  Returns
the open-tag length measured from the start of `rest`. -/
def matchScriptBody (rest : List Char) (a : Nat) : Option Nat :=
  let r1 := List.drop a rest
  if leadsWith "type=".data r1 then
    match (List.drop 5 r1).head? with
    | some q =>
      if isQuote q then
        let r3 := List.drop 6 r1
        if leadsWith "math/tex".data r3 then
          let r4 := List.drop 8 r3
          let bmax := (r4.takeWhile (fun c => !isQuote c)).length
          match (List.drop bmax r4).head? with
          | some q2 =>
            if isQuote q2 then
              match subIdx? ['>'] (List.drop (bmax + 1) r4) with
              | some g => some (a + 14 + bmax + 1 + g + 1)
              | none => none
            else none
          | none => none
        else none
      else none
    | none => none
  else none

/-- A full attempt at the script pattern for a fixed `[^>]*` length:
open tag, then `.*?</script>` ending at the first closing tag. -/
def scriptAttempt (rest : List Char) (a : Nat) : Option Nat :=
  match matchScriptBody rest a with
  | some ol =>
    match subIdx? "</script>".data (List.drop ol rest) with
    | some j => some (ol + j + 9)
    | none => none
  | none => none

/-- Backtracking loop over the greedy `[^>]*` length, longest first, as the
regex engine explores it. -/
def scriptSearch (rest : List Char) : Nat → Option Nat
  | 0 => scriptAttempt rest 0
  | a + 1 =>
    match scriptAttempt rest (a + 1) with
    | some r => some r
    | none => scriptSearch rest a

/-- Anchored match length for
`<script[^>]*type=["\']math/tex[^"\']*["\'][^>]*>.*?</script>`. -/
def matchScript : List Char → Option Nat := fun s =>
  if leadsWith "<script".data s then
    let rest := List.drop 7 s
    let amax := (rest.takeWhile (fun c => !(c == '>'))).length
    match scriptSearch rest amax with
    | some r => some (7 + r)
    | none => none
  else none

/-- One `re.sub(pattern, repl, content)` pass: scan left to right; at a
match of length `n`, allocate `MATH_TOKEN_<len(store)>__`, record the
matched text, emit the token, and resume after the match; otherwise copy
one character.  A zero-length report (which no matcher of this file
produces) is treated as no match so that fuel always suffices. -/
def subScanF (M : List Char → Option Nat) :
    Nat → List (String × String) → List Char → List Char → List Char × List (String × String)
  | 0, store, acc, s => (acc ++ s, store)
  | _ + 1, store, acc, [] => (acc, store)
  | f + 1, store, acc, c :: cs =>
    match M (c :: cs) with
    | some n =>
      if n == 0 then subScanF M f store (acc ++ [c]) cs
      else
        subScanF M f (store ++ [(mkToken store.length, String.mk (List.take n (c :: cs)))])
          (acc ++ (mkToken store.length).data) (List.drop n (c :: cs))
    | none => subScanF M f store (acc ++ [c]) cs

/-- One substitution pass over a whole string. -/
def runPass (M : List Char → Option Nat) (store : List (String × String)) (s : List Char) :
    List Char × List (String × String) :=
  subScanF M (s.length + 1) store [] s

/-- `protect_math`: the six passes in source order (script, mjx-container,
math element, `\[...\]`, `$$...$$`, `\(...\)`), starting from a freshly
cleared store, returning the transformed text and the final `MATH_STORE`. -/
def protect_math (s : String) : String × List (String × String) :=
  let r1 := runPass matchScript [] s.data
  let r2 := runPass (matchTag "<mjx-container".data "</mjx-container>".data) r1.2 r1.1
  let r3 := runPass (matchTag "<math".data "</math>".data) r2.2 r2.1
  let r4 := runPass (matchDelim ['\\', '['] ['\\', ']']) r3.2 r3.1
  let r5 := runPass (matchDelim ['$', '$'] ['$', '$']) r4.2 r4.1
  let r6 := runPass (matchDelim ['\\', '('] ['\\', ')']) r5.2 r5.1
  (String.mk r6.1, r6.2)

/-- First store entry whose (nonempty) token begins the scanned suffix:
the compiled alternation `re.compile("|".join(keys))` tries the keys in
store (insertion) order at each position. -/
def findTok (store : List (String × String)) (s : List Char) : Option (String × String) :=
  store.find? (fun p => !p.1.data.isEmpty && leadsWith p.1.data s)

/-- The single substitution scan performed by `restore_math`'s
`pattern.sub`: replacements are emitted verbatim and never rescanned. -/
def expandF (store : List (String × String)) : Nat → List Char → List Char
  | 0, s => s
  | _ + 1, [] => []
  | f + 1, c :: cs =>
    match findTok store (c :: cs) with
    | some (t, m) => m.data ++ expandF store f (List.drop t.data.length (c :: cs))
    | none => c :: expandF store f cs

/-- `restore_math`: identity on an empty store, otherwise one
alternation-substitution pass over the content. -/
def restore_math (store : List (String × String)) (s : String) : String :=
  if store.isEmpty then s else String.mk (expandF store (s.data.length + 1) s.data)

/-! ### Analysis devices for the round-trip proof (not part of the source) -/

/-- Characters that can occur in a math token: ASCII uppercase, digits,
underscore. -/
def tokCharB (c : Char) : Bool :=
  (65 ≤ c.toNat && c.toNat ≤ 90) || (48 ≤ c.toNat && c.toNat ≤ 57) || c == '_'

/-- The fixed token head `"MATH_TOKEN_"` as a char list. -/
def mtok11 : List Char := "MATH_TOKEN_".data

/-- The characters of a token after its initial `M`. -/
def mkTail (n : Nat) : List Char := "ATH_TOKEN_".data ++ natDigits n ++ ['_', '_']

/-- A matched segment delimited on both ends by non-token characters:
every container pattern of `protect_math` opens with one of `\\ $ <` and
closes with one of `] $ ) >`, so no match can start or stop strictly
inside a previously inserted token. -/
def goodSegL (l : List Char) : Prop :=
  l ≠ [] ∧ tokCharB l.headI = false ∧ tokCharB l.getLastI = false

/-- The store produced by `protect_math`: entry `i` is named `mkToken i`. -/
def storeNamesOK (S : List (String × String)) : Prop :=
  ∀ i p, S[i]? = some p → p.1 = mkToken i

/-- `Chain S out src`: `out` is obtained from `src` by replacing some
non-overlapping segments by tokens recorded in `S`, keeping every other
character. -/
inductive Chain (S : List (String × String)) : List Char → List Char → Prop
  | nil : Chain S [] []
  | keep (c : Char) {out src : List Char} : Chain S out src → Chain S (c :: out) (c :: src)
  | subst (t m : String) {out src : List Char} :
      (t, m) ∈ S → Chain S out src → Chain S (t.data ++ out) (m.data ++ src)

/-! ### Case-insensitive matching and further regex helpers -/

/-- Case-insensitive prefix test (Python `lower()` comparison). -/
def ciLeads : List Char → List Char → Bool
  | [], _ => true
  | _ :: _, [] => false
  | p :: ps, c :: cs => (p.toLower == c.toLower) && ciLeads ps cs

/-- One generic `re.sub(pattern, '', text)` pass given an anchored match
length oracle, deleting every leftmost non-overlapping match. -/
def remPatF (mt : List Char → Option Nat) : Nat → List Char → List Char
  | 0, s => s
  | _ + 1, [] => []
  | f + 1, c :: cs =>
    match mt (c :: cs) with
    | some n => if n == 0 then c :: remPatF mt f cs else remPatF mt f (List.drop n (c :: cs))
    | none => c :: remPatF mt f cs

/-- Delete all matches of a pattern, as `re.sub(pattern, '', text)`. -/
def remPat (mt : List Char → Option Nat) (l : List Char) : List Char :=
  remPatF mt (l.length + 1) l

/-! ### A4 unified section renumbering (`core.py` lines 4668-4756)

`process_chapter`'s A4 pass walks every `h3`/`h4`/`h5` element in document
order with three counters.  A heading is modelled by its tag name, class
list and text; the BeautifulSoup titlemark/string updates are modelled by
returning the assigned dotted number and the updated heading text. -/

/-- The per-chapter counter state of the A4 renumbering pass. -/
structure A4State where
  sec : Nat
  sub : Nat
  subsub : Nat
deriving DecidableEq

/-- One heading as seen by the A4 pass: tag name, classes, visible text. -/
structure A4Heading where
  name : String
  classes : List String
  text : String
deriving DecidableEq

/-- `'cls' in heading.get('class', [])`. -/
def hasCls (h : A4Heading) (c : String) : Bool := h.classes.contains c

/-- The anchored match of `^Enrichment(?:\s+[\d.]+)?:\s*` (IGNORECASE):
returns the remainder after the match, or `none` when the pattern does not
match at the start. -/
def stripEnrData (l : List Char) : Option (List Char) :=
  if ciLeads "enrichment".data l then
    let r0 := List.drop 10 l
    let sp := r0.takeWhile isSpc
    let afterSp := List.drop sp.length r0
    let dg := afterSp.takeWhile (fun c => c.isDigit || c == '.')
    if decide (1 ≤ sp.length) && decide (1 ≤ dg.length) &&
        ((List.drop dg.length afterSp).head? == some ':') then
      some ((List.drop (dg.length + 1) afterSp).dropWhile isSpc)
    else if r0.head? == some ':' then some ((List.drop 1 r0).dropWhile isSpc)
    else none
  else none

/-- `re.sub(r'^Enrichment(?:\s+[\d.]+)?:\s*', '', title_text, IGNORECASE).strip()`. -/
def stripEnrTitle (s : String) : String :=
  match stripEnrData s.data with
  | some r => pyStrip (String.mk r)
  | none => pyStrip s

/-- One step of the A4 renumbering state machine (`core.py` 4684-4751):
returns the new counters, the dotted number assigned (if any), and the
heading text after the in-place rewrite of enrichment titles. -/
def a4Step (ch : Nat) (st : A4State) (h : A4Heading) : A4State × Option String × String :=
  if hasCls h "chapterHead" then (st, none, h.text)
  else if h.name == "h3" && hasCls h "sectionHead" then
    let s := st.sec + 1
    (⟨s, 0, 0⟩, some (natRepr ch ++ "." ++ natRepr s), h.text)
  else if h.name == "h3" && hasCls h "enrichment-title" then
    let s := st.sec + 1
    let num := natRepr ch ++ "." ++ natRepr s
    (⟨s, 0, 0⟩, some num, "Enrichment " ++ num ++ ": " ++ stripEnrTitle h.text)
  else if h.name == "h4" && hasCls h "subsectionHead" then
    let sb := st.sub + 1
    (⟨st.sec, sb, 0⟩, some (natRepr ch ++ "." ++ natRepr st.sec ++ "." ++ natRepr sb), h.text)
  else if h.name == "h4" && hasCls h "enrichment-title" then
    let sb := st.sub + 1
    let num := natRepr ch ++ "." ++ natRepr st.sec ++ "." ++ natRepr sb
    (⟨st.sec, sb, 0⟩, some num, "Enrichment " ++ num ++ ": " ++ stripEnrTitle h.text)
  else if h.name == "h5" && (hasCls h "subsubsectionHead" || hasCls h "enrichment-title") then
    let ss := st.subsub + 1
    let num :=
      if 0 < st.sub then
        natRepr ch ++ "." ++ natRepr st.sec ++ "." ++ natRepr st.sub ++ "." ++ natRepr ss
      else natRepr ch ++ "." ++ natRepr st.sec ++ "." ++ natRepr ss
    (⟨st.sec, st.sub, ss⟩, some num,
      if hasCls h "enrichment-title" then "Enrichment " ++ num ++ ": " ++ stripEnrTitle h.text
      else h.text)
  else (st, none, h.text)

/-- The A4 pass over a heading stream: final counters plus, per heading,
the assigned number (if any) and the updated text. -/
def a4Run (ch : Nat) : A4State → List A4Heading → A4State × List (Option String × String)
  | st, [] => (st, [])
  | st, h :: hs =>
    let r := a4Step ch st h
    let rest := a4Run ch r.1 hs
    (rest.1, (r.2.1, r.2.2) :: rest.2)

/-! ### TOC extraction (`core.py` `extract_toc_from_body`, lines 3440-3572) -/

/-- One collected heading after TOC pass 1. -/
structure TocH where
  tag : String
  eid : String
  text : String
  isEnrichment : Bool
  enrNum : String
  enrTitle : String
deriving DecidableEq

/-- `re.match(r'Enrichment\s+([\d.]+):?\s*(.*)', text, IGNORECASE)`:
returns the number group and stripped title group on a match. -/
def enrParse (text : String) : Option (String × String) :=
  let l := text.data
  if ciLeads "enrichment".data l then
    let r0 := List.drop 10 l
    let sp := r0.takeWhile isSpc
    if sp.length == 0 then none
    else
      let r1 := List.drop sp.length r0
      let dg := r1.takeWhile (fun c => c.isDigit || c == '.')
      if dg.length == 0 then none
      else
        let r2 := List.drop dg.length r1
        let r3 := if r2.head? == some ':' then List.drop 1 r2 else r2
        let r4 := r3.dropWhile isSpc
        some (String.mk dg, pyStrip (String.mk r4))
  else none

/-- `re.sub(r'^1\.', f'{n}.', text)` applied when `lecture_num > 1`. -/
def rewriteLeadOne (n : Nat) (text : String) : String :=
  if 1 < n && leadsWith ['1', '.'] text.data then
    natRepr n ++ "." ++ String.mk (List.drop 2 text.data)
  else text

/-- TOC pass 1 record for one heading (tag, id, text). -/
def mkTocH (n : Nat) (tag eid text : String) : TocH :=
  let t1 := rewriteLeadOne n text
  match enrParse t1 with
  | some (num, title) => ⟨tag, eid, t1, true, rewriteLeadOne n num, title⟩
  | none => ⟨tag, eid, t1, false, "", ""⟩

/-- `'.'.join(enr_num.split('.')[:2])`. -/
def parentNumOf (num : String) : String :=
  joinWith "." (((splitOnCh '.' num.data).take 2).map String.mk)

/-- Display entries for the tail of a contiguous `h3` enrichment group:
subsection counter starts at `k` and the display text is
`f"{parent_num}.{counter} {enr_title}"`. -/
def grpDisp (parentNum : String) : Nat → List TocH → List (TocH × String × Bool)
  | _, [] => []
  | k, g :: gs =>
    (g, parentNum ++ "." ++ natRepr k ++ " " ++ g.enrTitle, true) :: grpDisp parentNum (k + 1) gs

/-- Length of the leading `(\.\d+)*` group run (number of groups). -/
def numGroupsF : Nat → List Char → Nat
  | 0, _ => 0
  | f + 1, l =>
    if l.head? == some '.' then
      let d := (List.drop 1 l).takeWhile Char.isDigit
      if d.length == 0 then 0 else 1 + numGroupsF f (List.drop (1 + d.length) l)
    else 0

/-- Number of dotted components of the leading section number of a text
(`re.match(r'^(\d+(?:\.\d+)*)', text)` then `split('.')`), 0 when none. -/
def leadNumParts (text : String) : Nat :=
  let d0 := text.data.takeWhile Char.isDigit
  if d0.length == 0 then 0
  else 1 + numGroupsF (text.data.length + 1) (List.drop d0.length text.data)

/-- Display text for a heading processed outside an `h3` enrichment group. -/
def tocEntryDisp (h : TocH) : String :=
  if h.isEnrichment then h.enrNum ++ " " ++ h.enrTitle else h.text

/-- Subsection classification for a heading processed outside an `h3`
enrichment group. -/
def tocEntrySub (h : TocH) : Bool :=
  if h.tag == "h4" then true else decide (3 ≤ leadNumParts h.text)

/-- TOC pass 2 (`core.py` 3491-3539): consecutive `h3` enrichments are
grouped; the first member keeps its first two number components as a
section, later members become subsections numbered under it. -/
def tocPass2F : Nat → List TocH → List (TocH × String × Bool)
  | 0, _ => []
  | _ + 1, [] => []
  | f + 1, h :: rest =>
    if h.isEnrichment && h.tag == "h3" then
      let parentNum := parentNumOf h.enrNum
      let grp := rest.takeWhile (fun g => g.tag == "h3" && g.isEnrichment)
      let tl := List.drop grp.length rest
      (h, parentNum ++ " " ++ h.enrTitle, false) :: (grpDisp parentNum 1 grp ++ tocPass2F f tl)
    else (h, tocEntryDisp h, tocEntrySub h) :: tocPass2F f rest

/-- TOC pass 2 over a full heading list. -/
def tocPass2 (hs : List TocH) : List (TocH × String × Bool) := tocPass2F (hs.length + 1) hs

/-! ### Colspan repair (`core.py` `process_tables_antigravity` step 2.45,
lines 3179-3210): a table is modelled by its `thead` rows and `tbody` rows,
each row being the list of its cells' colspan values. -/

/-- A table as seen by the colspan repair step. -/
structure PTable where
  theadRows : List (List Nat)
  bodyRows : List (List Nat)
deriving DecidableEq

/-- Total column count of a row, summing colspans. -/
def rowCols (r : List Nat) : Nat := r.foldl (fun a c => a + c) 0

/-- `actual_cols`: the widest data-row column count. -/
def actualCols (t : PTable) : Nat := t.bodyRows.foldl (fun a r => max a (rowCols r)) 0

/-- Widen the first cell with `colspan > 1` by the shortfall (the inner
`for cell in cells: ... break` loop). -/
def widenFirstGrouped (shortfall : Nat) : List Nat → List Nat
  | [] => []
  | c :: cs => if 1 < c then (c + shortfall) :: cs else c :: widenFirstGrouped shortfall cs

/-- Repair one header row against the actual data width. -/
def fixHeaderRow (actual : Nat) (r : List Nat) : List Nat :=
  if rowCols r < actual then widenFirstGrouped (actual - rowCols r) r else r

/-- The whole colspan-mismatch auto-fix: header rows are only touched when
data rows exist (`if data_rows:`), and only `thead` rows are repaired. -/
def autoFixColspan (t : PTable) : PTable :=
  if t.bodyRows.isEmpty then t
  else ⟨t.theadRows.map (fixHeaderRow (actualCols t)), t.bodyRows⟩

/-! ### Readable heading ids (`core.py` lines 3856-3945) -/

/-- ASCII letter test for the class `[a-zA-Z]`. -/
def isLetterB (c : Char) : Bool :=
  (65 ≤ c.toNat && c.toNat ≤ 90) || (97 ≤ c.toNat && c.toNat ≤ 122)

/-- ASCII alphanumeric test for the class `[a-zA-Z0-9]`. -/
def isAlnumB (c : Char) : Bool := isLetterB c || (48 ≤ c.toNat && c.toNat ≤ 57)

/-- The opening-brace character, kept out of char-literal syntax. -/
def lbr : Char := Char.ofNat 123

/-- The closing-brace character, kept out of char-literal syntax. -/
def rbr : Char := Char.ofNat 125

/-- Anchored match length of `<[^>]+>`. -/
def matchHtmlTag : List Char → Option Nat := fun s =>
  if s.head? == some '<' then
    match subIdx? ['>'] (List.drop 1 s) with
    | some g => if 1 ≤ g then some (g + 2) else none
    | none => none
  else none

/-- Anchored match length of `\$[^$]*\$`. -/
def matchDollarInline : List Char → Option Nat := fun s =>
  if s.head? == some '$' then
    match subIdx? ['$'] (List.drop 1 s) with
    | some g => some (g + 2)
    | none => none
  else none

/-- Anchored match length of `\\[a-zA-Z]+\{[^}]*\}`. -/
def matchTexCmdArg : List Char → Option Nat := fun s =>
  if s.head? == some '\\' then
    let letters := (List.drop 1 s).takeWhile isLetterB
    if letters.length == 0 then none
    else
      let r := List.drop (1 + letters.length) s
      if r.head? == some lbr then
        match subIdx? [rbr] (List.drop 1 r) with
        | some g => some (1 + letters.length + 1 + g + 1)
        | none => none
      else none
  else none

/-- Anchored match length of `\\[a-zA-Z]+`. -/
def matchTexCmd : List Char → Option Nat := fun s =>
  if s.head? == some '\\' then
    let letters := (List.drop 1 s).takeWhile isLetterB
    if letters.length == 0 then none else some (1 + letters.length)
  else none

/-- Anchored case-insensitive match of `pre` + `\d+` + `suf`
(the math-token residue patterns). -/
def matchCiDigits (pre suf : List Char) : List Char → Option Nat := fun s =>
  if ciLeads pre s then
    let r := List.drop pre.length s
    let d := r.takeWhile Char.isDigit
    if d.length == 0 then none
    else if ciLeads suf (List.drop d.length r) then some (pre.length + d.length + suf.length)
    else none
  else none

/-- Total length of the leading `(\.\d+)*` run in characters. -/
def numGroupsLenF : Nat → List Char → Nat
  | 0, _ => 0
  | f + 1, l =>
    if l.head? == some '.' then
      let d := (List.drop 1 l).takeWhile Char.isDigit
      if d.length == 0 then 0 else 1 + d.length + numGroupsLenF f (List.drop (1 + d.length) l)
    else 0

/-- `re.sub(r'^\d+(\.\d+)*\s*', '', text)` (anchored, at most once). -/
def dropSecNum (l : List Char) : List Char :=
  let d0 := l.takeWhile Char.isDigit
  if d0.length == 0 then l
  else
    let g := numGroupsLenF (l.length + 1) (List.drop d0.length l)
    (List.drop (d0.length + g) l).dropWhile isSpc

/-- `re.sub(r'\s+', ' ', text)`: collapse whitespace runs to one space. -/
def collapseWsF : Nat → List Char → List Char
  | 0, s => s
  | _ + 1, [] => []
  | f + 1, c :: cs =>
    if isSpc c then ' ' :: collapseWsF f (cs.dropWhile isSpc) else c :: collapseWsF f cs

/-- `clean_text_for_slug` (`core.py` 3861-3877): the ordered regex cascade
run on a heading's inner text before slugification. -/
def clean_text_for_slug (text : String) : String :=
  let t1 := pyStrip (String.mk (remPat matchHtmlTag text.data))
  let t2 := pyStrip (String.mk (dropSecNum t1.data))
  let t3 := remPat (matchCiDigits "MATH_TOKEN_".data "__".data) t2.data
  let t4 := remPat (matchCiDigits "MATHPROTECT_".data []) t3
  let t5 := remPat (matchCiDigits "math-token-".data []) t4
  let t6 := remPat (matchCiDigits "math_token_".data []) t5
  let t7 := remPat matchDollarInline t6
  let t8 := remPat matchTexCmdArg t7
  let t9 := remPat matchTexCmd t8
  pyStrip (String.mk (collapseWsF (t9.length + 1) t9))

/-- `re.sub(r'[^a-zA-Z0-9]+', '-', text)`: non-alphanumeric runs become a
single dash. -/
def dashifyF : Nat → List Char → List Char
  | 0, s => s
  | _ + 1, [] => []
  | f + 1, c :: cs =>
    if isAlnumB c then c :: dashifyF f cs
    else '-' :: dashifyF f (cs.dropWhile (fun d => !isAlnumB d))

/-- Python `s.strip('-')`. -/
def stripDashes (l : List Char) : List Char :=
  ((l.dropWhile (fun c => c == '-')).reverse.dropWhile (fun c => c == '-')).reverse

/-- `re.sub(r'-+', '-', slug)`. -/
def collapseDashesF : Nat → List Char → List Char
  | 0, s => s
  | _ + 1, [] => []
  | f + 1, c :: cs =>
    if c == '-' then '-' :: collapseDashesF f (cs.dropWhile (fun d => d == '-'))
    else c :: collapseDashesF f cs

/-- `slug[:60].rsplit('-', 1)[0]` applied when the slug exceeds 60 chars. -/
def truncate60 (l : List Char) : List Char :=
  if 60 < l.length then
    let t := List.take 60 l
    if t.contains '-' then ((t.reverse.dropWhile (fun c => !(c == '-'))).drop 1).reverse
    else t
  else l

/-- The slug of a heading text before uniquification (`generate_slug` up to
the `while slug in used_ids_set` loop). -/
def slugCore (text : String) : String :=
  let cleaned := clean_text_for_slug text
  let s1 := (stripDashes (dashifyF (cleaned.data.length + 1) cleaned.data)).map Char.toLower
  let s2 := collapseDashesF (s1.length + 1) s1
  let s3 := truncate60 s2
  if s3.isEmpty || s3 == ['-'] then "section" else String.mk s3

/-- The `while slug in used_ids_set: slug = f"{base_slug}-{counter}"` loop,
searching counters `k, k+1, ...`; the fuel `used.length + 1` provably
suffices (see `searchFreeF_some`), so the `none` case never occurs. -/
def searchFreeF (base : String) (used : List String) : Nat → Nat → Option String
  | 0, _ => none
  | f + 1, k =>
    let cand := base ++ "-" ++ natRepr k
    if used.contains cand then searchFreeF base used f (k + 1) else some cand

/-- `generate_slug(text, used_ids_set)`: slugify then disambiguate against
the used-id set with numeric suffixes starting at 2.  The `getD` default is
unreachable (`generate_slug_fresh`). -/
def generate_slug (text : String) (used : List String) : String :=
  let slug := slugCore text
  if used.contains slug then (searchFreeF slug used (used.length + 1) 2).getD (slug ++ "-overflow")
  else slug

/-- The heading-id pass of one `process_chapter` call: `used_ids` starts
empty (it is a local of `process_chapter`, `core.py` line 3858) and each
heading's slug is added to it in document order. -/
def chapterIdsGo : List String → List String → List String
  | [], _ => []
  | t :: ts, used =>
    let s := generate_slug t used
    s :: chapterIdsGo ts (used ++ [s])

/-- All heading ids emitted for one chapter, in document order. -/
def processChapterIds (texts : List String) : List String := chapterIdsGo texts []

/-- Heading ids for a whole run: each chapter is processed by its own
`process_chapter` call with a fresh `used_ids` set. -/
def processCorpusIds (chapters : List (List String)) : List (List String) :=
  chapters.map processChapterIds

/-! ### Nested-table flattening (`core.py` lines 3006-3047) -/

/-- The stacked lines collected from a nested table's rows: rows with more
than 2 cells are skipped (`continue`), others are joined with spaces and
stripped, and empty results are dropped. -/
def flattenLines : List (List String) → List String
  | [] => []
  | row :: rs =>
    if 2 < row.length then flattenLines rs
    else
      let t := pyStrip (joinSp row)
      if t == "" then flattenLines rs else t :: flattenLines rs

/-- The final content of a cell that contained nested tables: the nested
tables are decomposed unconditionally; when stacked lines exist the cell is
cleared and rebuilt from them with `<br>` separators, otherwise the cell's
remaining (non-table) content stays. -/
def cellTransform (otherContent : String) (rows : List (List String)) : String :=
  if rows.isEmpty then otherContent
  else
    let lines := flattenLines rows
    if lines.isEmpty then otherContent else joinWith "<br>" lines

/-! ### Citation rewriting (`core.py` lines 4256-4323) -/

/-- `re.sub(r'^\d+@', '', key)`: strip a biber refsection artifact. -/
def stripDigitsAt (s : String) : String :=
  let ds := s.data.takeWhile Char.isDigit
  if decide (1 ≤ ds.length) && ((List.drop ds.length s.data).head? == some '@') then
    String.mk (List.drop (ds.length + 1) s.data)
  else s

/-- `key.lower().startswith(prefix.lower())`. -/
def ciStarts (s p : String) : Bool := ciLeads p.data s.data

/-- The prefix-stripping loop of `normalize_bib_key` (first match wins). -/
def stripKnownPre (s : String) : String :=
  if ciStarts s "cite." then String.mk (List.drop 5 s.data)
  else if ciStarts s "bib." then String.mk (List.drop 4 s.data)
  else if ciStarts s "X0-" then String.mk (List.drop 3 s.data)
  else if ciStarts s "0_" then String.mk (List.drop 2 s.data)
  else if ciStarts s "cite" then String.mk (List.drop 4 s.data)
  else if ciStarts s "bib" then String.mk (List.drop 3 s.data)
  else s

/-- `normalize_bib_key` (`core.py` 4258-4271). -/
def normalize_bib_key (key : String) : String :=
  pyLstrip ['.', '-', '_'] (stripKnownPre (stripDigitsAt (pyStrip key)))

/-- Python `s.replace(pat, rep)`: all non-overlapping occurrences. -/
def replaceAllF (pat rep : List Char) : Nat → List Char → List Char
  | 0, s => s
  | _ + 1, [] => []
  | f + 1, c :: cs =>
    if !pat.isEmpty && leadsWith pat (c :: cs) then
      rep ++ replaceAllF pat rep f (List.drop pat.length (c :: cs))
    else c :: replaceAllF pat rep f cs

/-- Python `s.replace(pat, rep)`. -/
def pyReplace (s pat rep : String) : String :=
  String.mk (replaceAllF pat.data rep.data (s.data.length + 1) s.data)

/-- `cite_repl` (`core.py` 4273-4290) for one `href` attribute value. -/
def cite_repl (href : String) : String :=
  if href.data.head? == some '#' then
    let anchor := String.mk (href.data.dropWhile (fun c => c == '#'))
    let lowAnchor := anchor.data.map Char.toLower
    if hasSub "cite".data lowAnchor || hasSub "bib".data lowAnchor ||
        leadsWith "0_".data anchor.data || leadsWith "X0-".data anchor.data ||
        anchor.data.contains '@' then
      let key := normalize_bib_key anchor
      if key == "" then href else "bibliography.html#bib-" ++ key
    else href
  else if leadsWith "bibliography.html#bib-".data href.data then
    let existing := pyReplace href "bibliography.html#bib-" ""
    let normalized := normalize_bib_key existing
    if normalized == existing then href else "bibliography.html#bib-" ++ normalized
  else href

/-- `cite_number_repl` (`core.py` 4297-4316) for one matched citation
link: inputs are the captured key, bracket flags and displayed number;
output is the rewritten `href` target and displayed text. -/
def cite_number_repl (bibMap : List (String × String)) (key : String) (bo : Bool)
    (num : String) (bc : Bool) : String × String :=
  let nk := stripDigitsAt key
  match List.lookup nk bibMap with
  | some newNum =>
    ("bibliography.html#bib-" ++ nk,
      (if bo then "[" else "") ++ newNum ++ (if bc then "]" else ""))
  | none =>
    ("bibliography.html#bib-" ++ key,
      (if bo then "[" else "") ++ num ++ (if bc then "]" else ""))

/-! ### Table wrapping idempotence (`core.py` lines 2944, 3145-3159,
3359-3370): a table's relevant context is the number of enclosing
`table-wrapper` ancestors (`find_parent(class_='table-wrapper')` is `None`
exactly when this count is 0) and where its caption lives. -/

/-- Wrapper/caption context of one table. -/
structure TableCtx where
  wrappers : Nat
  capInTable : Bool
  capOutside : Bool
deriving DecidableEq

/-- One run of the wrap step over a table: an unwrapped table has its
caption extracted and gains exactly one wrapper; an already-wrapped table
is left untouched. -/
def tableWrapStep (t : TableCtx) : TableCtx :=
  if t.wrappers == 0 then ⟨1, false, t.capOutside || t.capInTable⟩ else t

/-- Iterated runs of the wrap step. -/
def tableWrapRuns : Nat → TableCtx → TableCtx
  | 0, t => t
  | n + 1, t => tableWrapRuns n (tableWrapStep t)

/-! ### Output safety validation (`core.py` `validate_output_safety`,
lines 3639-3686, and the write gate in `process_chapter`, 4967-4980) -/

/-- `MIN_CONTENT_LENGTH` (`core.py` line 41). -/
def MIN_CONTENT_LENGTH : Nat := 500

/-- The leftmost match of
`<!-- content-start -->(.*?)<!-- content-end -->`: group 1 of the first
start marker followed (lazily) by an end marker. -/
def markerExtractF : Nat → List Char → Option (List Char)
  | 0, _ => none
  | _ + 1, [] => none
  | f + 1, c :: cs =>
    if leadsWith "<!-- content-start -->".data (c :: cs) then
      let rest := List.drop ("<!-- content-start -->".data).length (c :: cs)
      match subIdx? "<!-- content-end -->".data rest with
      | some i => some (List.take i rest)
      | none => markerExtractF f cs
    else markerExtractF f cs

/-- `re.search(r'<!-- content-start -->(.*?)<!-- content-end -->', html)`. -/
def markerExtract (html : String) : Option (List Char) :=
  markerExtractF (html.data.length + 1) html.data

/-- `re.search(r'<h[12][^>]*>', content, re.IGNORECASE)`: an `<h1`/`<h2`
opening (either case of `h`) followed by a `>`. -/
def hasH12F : Nat → List Char → Bool
  | 0, _ => false
  | _ + 1, [] => false
  | f + 1, c :: cs =>
    if (ciLeads "<h1".data (c :: cs) || ciLeads "<h2".data (c :: cs)) &&
        (List.drop 3 (c :: cs)).contains '>' then true
    else hasH12F f cs

/-- Match test for the heading pattern over a whole char list. -/
def hasH12 (l : List Char) : Bool := hasH12F (l.length + 1) l

/-- Checks 3-6 of `validate_output_safety`, shared by the marker and
fallback paths (`content` is the extracted body or the whole document). -/
def validateTail (html : String) (content : List Char) : Bool × String :=
  if !hasH12 content then (false, "No headings (h1/h2) found in content")
  else if hasSub "MATH_TOKEN_".data html.data then
    (false, "Unrestored math placeholder found")
  else if pyCount "class=\"sidebar\"" html ≠ 1 then (false, "Invalid sidebar count")
  else if pyCount "class=\"top-bar\"" html ≠ 1 then (false, "Invalid top-bar count")
  else (true, "")

/-- `validate_output_safety(html_content, filename)` (the `filename`
argument is only used in log text and is omitted). -/
def validate_output_safety (html : String) : Bool × String :=
  if pyCount "id=\"doc_content\"" html ≠ 1 then (false, "Invalid doc_content count")
  else
    match markerExtract html with
    | none =>
      if html.data.length < 5000 then (false, "Total HTML too short")
      else validateTail html html.data
    | some content =>
      if content.length < MIN_CONTENT_LENGTH then (false, "Content too short")
      else validateTail html content

/-- The write gate at the end of `process_chapter`: on a failed safety
check the function returns without writing, so the file keeps its previous
content; otherwise the new HTML is written. -/
def chapterGate (orig newHtml : String) : String :=
  if (validate_output_safety newHtml).1 then newHtml else orig

/-- The `for ch in to_process: process_chapter(...)` loop over the final
file contents: each chapter's outcome depends only on its own pair. -/
def processChapters (l : List (String × String)) : List String :=
  l.map (fun p => chapterGate p.1 p.2)

/-! ## Part 2: lemmas and theorems -/

theorem digVal_digChar (m : Nat) (h : m < 10) : digVal (digChar m) = m := by
  interval_cases m <;> rfl

theorem digChar_range (m : Nat) (h : m < 10) :
    48 ≤ (digChar m).toNat ∧ (digChar m).toNat ≤ 57 := by
  interval_cases m <;> exact ⟨by decide, by decide⟩

theorem natDigitsF_stable : ∀ n f g, n < f → n < g → natDigitsF f n = natDigitsF g n := by
  intro n
  induction n using Nat.strong_induction_on with
  | _ n ih =>
    intro f g hf hg
    match f, g with
    | f' + 1, g' + 1 =>
      by_cases h10 : n < 10
      · simp [natDigitsF, h10]
      · have hdiv : n / 10 < n := Nat.div_lt_self (by omega) (by omega)
        simp only [natDigitsF, if_neg h10]
        rw [ih (n / 10) hdiv f' g' (by omega) (by omega)]

theorem natDigits_eq (n : Nat) :
    natDigits n = if n < 10 then [digChar n] else natDigits (n / 10) ++ [digChar (n % 10)] := by
  by_cases h10 : n < 10
  · simp [natDigits, natDigitsF, h10]
  · have hdiv : n / 10 < n := Nat.div_lt_self (by omega) (by omega)
    rw [if_neg h10]
    calc natDigits n = natDigitsF n (n / 10) ++ [digChar (n % 10)] := by
          simp [natDigits, natDigitsF, h10]
      _ = natDigits (n / 10) ++ [digChar (n % 10)] := by
          rw [natDigitsF_stable (n / 10) n (n / 10 + 1) (by omega) (by omega)]
          rfl

theorem evalDigs_append_one (l : List Char) (c : Char) :
    evalDigs (l ++ [c]) = evalDigs l * 10 + digVal c := by
  simp [evalDigs, List.foldl_append]

theorem evalDigs_natDigits : ∀ n, evalDigs (natDigits n) = n := by
  intro n
  induction n using Nat.strong_induction_on with
  | _ n ih =>
    rw [natDigits_eq]
    by_cases h10 : n < 10
    · simp [h10, evalDigs, digVal_digChar n h10]
    · have hdiv : n / 10 < n := Nat.div_lt_self (by omega) (by omega)
      rw [if_neg h10, evalDigs_append_one, ih (n / 10) hdiv,
        digVal_digChar (n % 10) (Nat.mod_lt n (by omega))]
      omega

theorem natDigits_inj {a b : Nat} (h : natDigits a = natDigits b) : a = b := by
  have ha := evalDigs_natDigits a
  have hb := evalDigs_natDigits b
  rw [← ha, ← hb, h]

theorem natRepr_inj {a b : Nat} (h : natRepr a = natRepr b) : a = b := by
  apply natDigits_inj
  have h2 := congrArg String.data h
  simpa [natRepr] using h2

theorem natDigits_ne_nil (n : Nat) : natDigits n ≠ [] := by
  rw [natDigits_eq]
  by_cases h10 : n < 10 <;> simp [h10]

theorem natDigits_digit : ∀ n, ∀ c ∈ natDigits n, 48 ≤ c.toNat ∧ c.toNat ≤ 57 := by
  intro n
  induction n using Nat.strong_induction_on with
  | _ n ih =>
    rw [natDigits_eq]
    by_cases h10 : n < 10
    · simp only [if_pos h10, List.mem_singleton]
      rintro c rfl
      exact digChar_range n h10
    · have hdiv : n / 10 < n := Nat.div_lt_self (by omega) (by omega)
      simp only [if_neg h10, List.mem_append, List.mem_singleton]
      rintro c (hc | rfl)
      · exact ih (n / 10) hdiv c hc
      · exact digChar_range (n % 10) (Nat.mod_lt n (by omega))

theorem leadsWith_length : ∀ p s : List Char, leadsWith p s = true → p.length ≤ s.length := by
  intro p
  induction p with
  | nil => intro s _; simp
  | cons a ps ih =>
    intro s h
    cases s with
    | nil => simp [leadsWith] at h
    | cons c cs =>
      simp only [leadsWith, Bool.and_eq_true] at h
      have := ih cs h.2
      simpa using Nat.succ_le_succ this

theorem leadsWith_take : ∀ p s : List Char, leadsWith p s = true → List.take p.length s = p := by
  intro p
  induction p with
  | nil => intro s _; simp
  | cons a ps ih =>
    intro s h
    cases s with
    | nil => simp [leadsWith] at h
    | cons c cs =>
      simp only [leadsWith, Bool.and_eq_true, beq_iff_eq] at h
      simp [List.take_cons, ih cs h.2, h.1]

theorem leadsWith_of_take {p s : List Char} (h : List.take p.length s = p) :
    leadsWith p s = true := by
  induction p generalizing s with
  | nil => simp [leadsWith]
  | cons a ps ih =>
    cases s with
    | nil => simp at h
    | cons c cs =>
      simp only [List.length_cons, List.take_succ_cons, List.cons.injEq] at h
      simp [leadsWith, h.1, ih h.2]

theorem leadsWith_append_self (p r : List Char) : leadsWith p (p ++ r) = true := by
  apply leadsWith_of_take
  simp [List.take_append_of_le_length (Nat.le_refl p.length)]

theorem leadsWith_weaken {p s : List Char} (h : leadsWith p s = true) (k : Nat) (hk : k ≤ p.length) :
    leadsWith (List.take k p) s = true := by
  apply leadsWith_of_take
  have ht := leadsWith_take p s h
  have : List.take (List.take k p).length s = List.take k (List.take p.length s) := by
    rw [List.take_take]
    congr 1
    simp [Nat.min_eq_left hk, Nat.min_eq_left (Nat.le_trans hk (leadsWith_length p s h))]
  rw [this, ht]

theorem leadsWith_short_of_append {p a b : List Char} (h : leadsWith p (a ++ b) = true)
    (hl : p.length ≤ a.length) : leadsWith p a = true := by
  apply leadsWith_of_take
  have := leadsWith_take p (a ++ b) h
  rwa [List.take_append_of_le_length hl] at this

theorem take_eq_of_leadsWith_long {p a b : List Char} (h : leadsWith p (a ++ b) = true)
    (hl : a.length ≤ p.length) : List.take a.length p = a := by
  have ht := leadsWith_take p (a ++ b) h
  calc List.take a.length p
      = List.take a.length (List.take p.length (a ++ b)) := by rw [ht]
    _ = List.take a.length (a ++ b) := by rw [List.take_take, Nat.min_eq_left hl]
    _ = a := by rw [List.take_append_of_le_length (Nat.le_refl _), List.take_length]

theorem subIdx?_spec : ∀ s pat i, subIdx? pat s = some i →
    leadsWith pat (List.drop i s) = true ∧ i + pat.length ≤ s.length := by
  intro s
  induction s with
  | nil =>
    intro pat i h
    simp only [subIdx?] at h
    by_cases hl : leadsWith pat [] = true
    · simp only [if_pos hl, Option.some.injEq] at h
      subst h
      exact ⟨hl, by simpa using leadsWith_length pat [] hl⟩
    · simp [hl] at h
  | cons c cs ih =>
    intro pat i h
    simp only [subIdx?] at h
    by_cases hl : leadsWith pat (c :: cs) = true
    · simp only [if_pos hl, Option.some.injEq] at h
      subst h
      exact ⟨hl, by simpa using leadsWith_length pat (c :: cs) hl⟩
    · simp only [if_neg hl, Option.map_eq_some'] at h
      obtain ⟨j, hj, rfl⟩ := h
      obtain ⟨h1, h2⟩ := ih pat j hj
      constructor
      · simpa using h1
      · simp only [List.length_cons]
        omega

theorem str_data_append (a b : String) : (a ++ b).data = a.data ++ b.data := by
  cases a
  cases b
  rfl

theorem mkToken_data (n : Nat) :
    (mkToken n).data = mtok11 ++ natDigits n ++ ['_', '_'] := by
  simp [mkToken, str_data_append, natRepr, mtok11]

theorem mkToken_cons (n : Nat) : (mkToken n).data = 'M' :: mkTail n := by
  rw [mkToken_data]
  rfl

theorem mkToken_ne_nil (n : Nat) : (mkToken n).data ≠ [] := by
  rw [mkToken_cons]
  simp

theorem natDigits_tokChar (n : Nat) : ∀ c ∈ natDigits n, tokCharB c = true := by
  intro c hc
  obtain ⟨h1, h2⟩ := natDigits_digit n c hc
  simp only [tokCharB, Bool.or_eq_true, Bool.and_eq_true, decide_eq_true_eq]
  exact Or.inl (Or.inr ⟨h1, h2⟩)

theorem natDigits_ne_M (n : Nat) : ∀ c ∈ natDigits n, ¬ c = 'M' := by
  intro c hc
  obtain ⟨_, h2⟩ := natDigits_digit n c hc
  rintro rfl
  exact absurd h2 (by decide)

theorem mkTail_no_M (n : Nat) : ∀ c ∈ mkTail n, ¬ c = 'M' := by
  intro c hc
  have hrepr : "ATH_TOKEN_".data = ['A', 'T', 'H', '_', 'T', 'O', 'K', 'E', 'N', '_'] := rfl
  simp only [mkTail, hrepr, List.mem_append] at hc
  have hfix : ∀ d ∈ ['A', 'T', 'H', '_', 'T', 'O', 'K', 'E', 'N', '_'], ¬ d = 'M' := by decide
  have hund : ∀ d ∈ ['_', '_'], ¬ d = 'M' := by decide
  rcases hc with (h | h) | h
  · exact hfix c h
  · exact natDigits_ne_M n c h
  · exact hund c h

theorem mkTail_tokChar (n : Nat) : ∀ c ∈ mkTail n, tokCharB c = true := by
  intro c hc
  have hrepr : "ATH_TOKEN_".data = ['A', 'T', 'H', '_', 'T', 'O', 'K', 'E', 'N', '_'] := rfl
  simp only [mkTail, hrepr, List.mem_append] at hc
  have hfix : ∀ d ∈ ['A', 'T', 'H', '_', 'T', 'O', 'K', 'E', 'N', '_'], tokCharB d = true := by
    decide
  have hund : ∀ d ∈ ['_', '_'], tokCharB d = true := by decide
  rcases hc with (h | h) | h
  · exact hfix c h
  · exact natDigits_tokChar n c h
  · exact hund c h

theorem mkToken_tokChar (n : Nat) : ∀ c ∈ (mkToken n).data, tokCharB c = true := by
  intro c hc
  rw [mkToken_cons] at hc
  rcases List.mem_cons.mp hc with rfl | h
  · decide
  · exact mkTail_tokChar n c h

theorem mkToken_inj {i j : Nat} (h : mkToken i = mkToken j) : i = j := by
  have hd := congrArg String.data h
  rw [mkToken_data, mkToken_data] at hd
  have h1 : mtok11 ++ natDigits i = mtok11 ++ natDigits j :=
    List.append_cancel_right hd
  exact natDigits_inj (List.append_cancel_left h1)

theorem storeNamesOK_nil : storeNamesOK [] := by
  intro i p h
  simp at h

theorem storeNamesOK_snoc {S : List (String × String)} (m : String) (h : storeNamesOK S) :
    storeNamesOK (S ++ [(mkToken S.length, m)]) := by
  intro i p hi
  rw [List.getElem?_append] at hi
  by_cases hlt : i < S.length
  · rw [if_pos hlt] at hi
    exact h i p hi
  · rw [if_neg hlt] at hi
    rcases Nat.eq_or_lt_of_le (Nat.le_of_not_lt hlt) with heq | hgt
    · have h0 : i - S.length = 0 := by omega
      rw [h0] at hi
      obtain rfl : (mkToken S.length, m) = p := by simpa using hi
      show mkToken S.length = mkToken i
      rw [← heq]
    · have hlen : ([(mkToken S.length, m)] : List (String × String)).length ≤ i - S.length := by
        simp
        omega
      rw [List.getElem?_eq_none hlen] at hi
      cases hi

theorem storeNames_unique {S : List (String × String)} (h : storeNamesOK S) :
    ∀ p ∈ S, ∀ q ∈ S, p.1 = q.1 → p = q := by
  intro p hp q hq hpq
  obtain ⟨i, hi⟩ := List.getElem?_of_mem hp
  obtain ⟨j, hj⟩ := List.getElem?_of_mem hq
  have hij : mkToken i = mkToken j := by rw [← h i p hi, ← h j q hj, hpq]
  have : i = j := mkToken_inj hij
  subst this
  rw [hi] at hj
  exact Option.some.inj hj

theorem chain_mono {S S' : List (String × String)} {out src : List Char}
    (h : Chain S out src) (hs : ∀ p ∈ S, p ∈ S') : Chain S' out src := by
  induction h with
  | nil => exact Chain.nil
  | keep c _ ih => exact Chain.keep c ih
  | subst t m hm _ ih => exact Chain.subst t m (hs _ hm) ih

theorem chain_src_nil {S : List (String × String)} {out src : List Char}
    (h : Chain S out src) (hsrc : src = []) (hS : ∀ p ∈ S, p.2.data ≠ []) : out = [] := by
  induction h with
  | nil => rfl
  | keep c _ _ => simp at hsrc
  | subst t m hm _ _ => exact absurd (List.append_eq_nil.mp hsrc).1 (hS (t, m) hm)

theorem subScanF_spec (M : List Char → Option Nat) (Q : List Char → Prop)
    (hM : ∀ s n, M s = some n → 0 < n → Q (List.take n s)) :
    ∀ fuel s store acc, s.length < fuel →
      ∃ out Δ, subScanF M fuel store acc s = (acc ++ out, store ++ Δ) ∧
        Chain Δ out s ∧
        (storeNamesOK store → storeNamesOK (store ++ Δ)) ∧
        ∀ p ∈ Δ, Q p.2.data ∧ ∃ k, p.1 = mkToken k := by
  intro fuel
  induction fuel with
  | zero => intro s store acc h; omega
  | succ f ih =>
    intro s store acc h
    cases s with
    | nil =>
      refine ⟨[], [], ?_, Chain.nil, ?_, ?_⟩
      · simp [subScanF]
      · intro hok; simpa using hok
      · intro p hp; simp at hp
    | cons c cs =>
      have hlen : cs.length < f := by
        simp only [List.length_cons] at h
        omega
      cases hm : M (c :: cs) with
      | none =>
        obtain ⟨out, Δ, heq, hch, hnames, hQ⟩ := ih cs store (acc ++ [c]) hlen
        refine ⟨c :: out, Δ, ?_, Chain.keep c hch, hnames, hQ⟩
        simp only [subScanF, hm]
        rw [heq]
        simp
      | some n =>
        by_cases hn0 : n = 0
        · subst hn0
          obtain ⟨out, Δ, heq, hch, hnames, hQ⟩ := ih cs store (acc ++ [c]) hlen
          refine ⟨c :: out, Δ, ?_, Chain.keep c hch, hnames, hQ⟩
          simp only [subScanF, hm, beq_self_eq_true, if_true]
          rw [heq]
          simp
        · have hn : 0 < n := Nat.pos_of_ne_zero hn0
          have hdl : (List.drop n (c :: cs)).length < f := by
            simp only [List.length_drop, List.length_cons]
            omega
          obtain ⟨out, Δ, heq, hch, hnames, hQ⟩ :=
            ih (List.drop n (c :: cs))
              (store ++ [(mkToken store.length, String.mk (List.take n (c :: cs)))])
              (acc ++ (mkToken store.length).data) hdl
          refine ⟨(mkToken store.length).data ++ out,
            (mkToken store.length, String.mk (List.take n (c :: cs))) :: Δ, ?_, ?_, ?_, ?_⟩
          · have hne : (n == 0) = false := by simpa using hn0
            simp only [subScanF, hm, hne, Bool.false_eq_true, if_false]
            rw [heq]
            simp
          · have hc2 : Chain ((mkToken store.length, String.mk (List.take n (c :: cs))) :: Δ)
                ((mkToken store.length).data ++ out)
                ((String.mk (List.take n (c :: cs))).data ++ List.drop n (c :: cs)) :=
              Chain.subst _ _ (List.mem_cons_self _ _)
                (chain_mono hch (fun p hp => List.mem_cons_of_mem _ hp))
            have hsplit : (String.mk (List.take n (c :: cs))).data ++ List.drop n (c :: cs) =
                c :: cs := by
              simp
            rwa [hsplit] at hc2
          · intro hok
            have h2 := hnames (storeNamesOK_snoc _ hok)
            simpa using h2
          · intro p hp
            rcases List.mem_cons.mp hp with rfl | htl
            · refine ⟨?_, store.length, rfl⟩
              have := hM (c :: cs) n hm hn
              simpa using this
            · exact hQ p htl

theorem getLastI_append {a l : List Char} (h : l ≠ []) : (a ++ l).getLastI = l.getLastI := by
  rw [List.getLastI_eq_getLast?, List.getLastI_eq_getLast?, List.getLast?_append_of_ne_nil a h]

theorem take_headI {s : List Char} {n : Nat} (hn : 0 < n) (hs : s ≠ []) :
    (List.take n s).headI = s.headI := by
  cases s with
  | nil => exact absurd rfl hs
  | cons c cs =>
    cases n with
    | zero => omega
    | succ m => rfl

theorem leadsWith_headI {c : Char} {p s : List Char} (h : leadsWith (c :: p) s = true) :
    s.headI = c := by
  cases s with
  | nil => simp [leadsWith] at h
  | cons d ds =>
    simp only [leadsWith, Bool.and_eq_true, beq_iff_eq] at h
    simp [h.1]

theorem take_getLastI_of_close {s cls : List Char} {n k : Nat}
    (hn : n = k + cls.length) (hcls : cls ≠ [])
    (hlw : leadsWith cls (List.drop k s) = true) :
    (List.take n s).getLastI = cls.getLastI := by
  have h1 : List.take n s = List.take k s ++ cls := by
    rw [hn, List.take_add]
    congr 1
    exact leadsWith_take cls _ hlw
  rw [h1]
  exact getLastI_append hcls

theorem matchSeg_good {s opn cls : List Char} {n k : Nat}
    (hop : leadsWith opn s = true) (hopne : opn ≠ [])
    (hk : n = k + cls.length) (hcl : leadsWith cls (List.drop k s) = true)
    (hclne : cls ≠ []) (hns : n ≤ s.length)
    (hho : tokCharB opn.headI = false) (hhc : tokCharB cls.getLastI = false) :
    goodSegL (List.take n s) := by
  have hclen : 0 < cls.length := List.length_pos.mpr hclne
  have hn : 0 < n := by omega
  have hs : s ≠ [] := by
    intro he
    subst he
    simp at hns
    omega
  refine ⟨?_, ?_, ?_⟩
  · rw [Ne, List.take_eq_nil_iff]
    push_neg
    exact ⟨by omega, hs⟩
  · rw [take_headI hn hs]
    obtain ⟨o, os, rfl⟩ := List.exists_cons_of_ne_nil hopne
    rw [leadsWith_headI hop]
    simpa using hho
  · rw [take_getLastI_of_close hk hclne hcl]
    exact hhc

theorem matchDelim_spec {opn cls s : List Char} {n : Nat} (h : matchDelim opn cls s = some n) :
    leadsWith opn s = true ∧
      ∃ k, n = k + cls.length ∧ leadsWith cls (List.drop k s) = true ∧ n ≤ s.length := by
  unfold matchDelim at h
  split at h
  next hop =>
    split at h
    next i hsi =>
      cases Option.some.inj h
      obtain ⟨hlw, hle⟩ := subIdx?_spec _ cls i hsi
      rw [List.drop_drop] at hlw
      have hol := leadsWith_length opn s hop
      have hdl : (List.drop opn.length s).length = s.length - opn.length := by simp
      exact ⟨hop, opn.length + i, by omega, hlw, by omega⟩
    next => cases h
  next => cases h

theorem matchTag_spec {oh ct s : List Char} {n : Nat} (h : matchTag oh ct s = some n) :
    leadsWith oh s = true ∧
      ∃ k, n = k + ct.length ∧ leadsWith ct (List.drop k s) = true ∧ n ≤ s.length := by
  unfold matchTag at h
  split at h
  next hop =>
    dsimp only at h
    split at h
    next g hg =>
      split at h
      next j hj =>
        cases Option.some.inj h
        obtain ⟨_, hgle⟩ := subIdx?_spec _ ['>'] g hg
        obtain ⟨hlw, hjle⟩ := subIdx?_spec _ ct j hj
        rw [List.drop_drop, List.drop_drop] at hlw
        have hol := leadsWith_length oh s hop
        have hd1 : (List.drop oh.length s).length = s.length - oh.length := by simp
        have hd2 : (List.drop (g + 1) (List.drop oh.length s)).length =
            s.length - oh.length - (g + 1) := by simp; omega
        refine ⟨hop, oh.length + g + 1 + j, by omega, ?_, ?_⟩
        · have harith : oh.length + (g + 1 + j) = oh.length + g + 1 + j := by omega
          rw [harith] at hlw
          exact hlw
        · simp only [List.length_cons, List.length_nil] at hgle
          omega
      next => cases h
    next => cases h
  next => cases h

theorem scriptAttempt_spec {rest : List Char} {a r : Nat} (h : scriptAttempt rest a = some r) :
    ∃ k, r = k + 9 ∧ leadsWith "</script>".data (List.drop k rest) = true ∧ r ≤ rest.length := by
  unfold scriptAttempt at h
  split at h
  next ol hb =>
    split at h
    next j hj =>
      cases Option.some.inj h
      obtain ⟨hlw, hjle⟩ := subIdx?_spec _ _ j hj
      rw [List.drop_drop] at hlw
      have hd : (List.drop ol rest).length = rest.length - ol := by simp
      have h9 : ("</script>".data).length = 9 := rfl
      rw [h9] at hjle
      exact ⟨ol + j, by omega, hlw, by omega⟩
    next => cases h
  next => cases h

theorem scriptSearch_spec : ∀ a (rest : List Char) (r : Nat), scriptSearch rest a = some r →
    ∃ k, r = k + 9 ∧ leadsWith "</script>".data (List.drop k rest) = true ∧ r ≤ rest.length := by
  intro a
  induction a with
  | zero => intro rest r h; exact scriptAttempt_spec h
  | succ a ih =>
    intro rest r h
    unfold scriptSearch at h
    split at h
    next v ha =>
      cases Option.some.inj h
      exact scriptAttempt_spec ha
    next => exact ih rest r h

theorem matchScript_spec {s : List Char} {n : Nat} (h : matchScript s = some n) :
    leadsWith "<script".data s = true ∧
      ∃ k, n = k + 9 ∧ leadsWith "</script>".data (List.drop k s) = true ∧ n ≤ s.length := by
  unfold matchScript at h
  split at h
  next hop =>
    dsimp only at h
    split at h
    next r hr =>
      cases Option.some.inj h
      obtain ⟨k, hk, hlw, hle⟩ := scriptSearch_spec _ _ _ hr
      rw [List.drop_drop] at hlw
      have h7 : ("<script".data).length = 7 := rfl
      have hol := leadsWith_length _ s hop
      rw [h7] at hol
      have hd : (List.drop 7 s).length = s.length - 7 := by simp
      exact ⟨hop, 7 + k, by omega, hlw, by omega⟩
    next => cases h
  next => cases h

theorem matchDelim_good {opn cls : List Char} (hopne : opn ≠ []) (hclne : cls ≠ [])
    (hho : tokCharB opn.headI = false) (hhc : tokCharB cls.getLastI = false) :
    ∀ s n, matchDelim opn cls s = some n → 0 < n → goodSegL (List.take n s) := by
  intro s n h _
  obtain ⟨hop, k, hk, hcl, hns⟩ := matchDelim_spec h
  exact matchSeg_good hop hopne hk hcl hclne hns hho hhc

theorem matchTag_good {oh ct : List Char} (hopne : oh ≠ []) (hclne : ct ≠ [])
    (hho : tokCharB oh.headI = false) (hhc : tokCharB ct.getLastI = false) :
    ∀ s n, matchTag oh ct s = some n → 0 < n → goodSegL (List.take n s) := by
  intro s n h _
  obtain ⟨hop, k, hk, hcl, hns⟩ := matchTag_spec h
  exact matchSeg_good hop hopne hk hcl hclne hns hho hhc

theorem matchScript_good :
    ∀ s n, matchScript s = some n → 0 < n → goodSegL (List.take n s) := by
  intro s n h _
  obtain ⟨hop, k, hk, hcl, hns⟩ := matchScript_spec h
  have h9 : ("</script>".data).length = 9 := rfl
  exact matchSeg_good hop (by decide) (by rw [h9]; exact hk) hcl (by decide) hns
    (by decide) (by decide)

theorem chain_inv {S : List (String × String)} {out x : List Char} (h : Chain S out x) :
    (out = [] ∧ x = []) ∨
    (∃ c out₂ x₂, out = c :: out₂ ∧ x = c :: x₂ ∧ Chain S out₂ x₂) ∨
    (∃ t m out₂ x₂, (t, m) ∈ S ∧ out = t.data ++ out₂ ∧ x = m.data ++ x₂ ∧ Chain S out₂ x₂) := by
  cases h with
  | nil => exact Or.inl ⟨rfl, rfl⟩
  | keep c h2 => exact Or.inr (Or.inl ⟨c, _, _, rfl, rfl, h2⟩)
  | subst t m hm h2 => exact Or.inr (Or.inr ⟨t, m, _, _, hm, rfl, rfl, h2⟩)

theorem headI_append {a b : List Char} (h : a ≠ []) : (a ++ b).headI = a.headI := by
  cases a with
  | nil => exact absurd rfl h
  | cons c cs => rfl

theorem getLastI_cons {c : Char} {m : List Char} (h : m ≠ []) :
    (c :: m).getLastI = m.getLastI := by
  have : c :: m = [c] ++ m := rfl
  rw [this]
  exact getLastI_append h

theorem getLastI_mem : ∀ (l : List Char), l ≠ [] → l.getLastI ∈ l := by
  intro l
  induction l with
  | nil => intro h; exact absurd rfl h
  | cons c cs ih =>
    intro _
    by_cases hcs : cs = []
    · subst hcs
      simp [List.getLastI]
    · rw [getLastI_cons hcs]
      exact List.mem_cons_of_mem c (ih hcs)

theorem leadsWith_trans {a b s : List Char} (h1 : leadsWith a b = true)
    (h2 : leadsWith b s = true) : leadsWith a s = true := by
  apply leadsWith_of_take
  have hab := leadsWith_length a b h1
  have ht1 := leadsWith_take a b h1
  have ht2 := leadsWith_take b s h2
  calc List.take a.length s = List.take a.length (List.take b.length s) := by
        rw [List.take_take, Nat.min_eq_left hab]
    _ = List.take a.length b := by rw [ht2]
    _ = a := ht1

theorem hasSub_of_leadsWith {p s : List Char} (h : leadsWith p s = true) : hasSub p s = true := by
  cases s with
  | nil => simp [hasSub, subIdx?, h]
  | cons c cs => simp [hasSub, subIdx?, h]

theorem hasSub_cons_of_tail {p : List Char} {c : Char} {cs : List Char}
    (h : hasSub p cs = true) : hasSub p (c :: cs) = true := by
  simp only [hasSub, subIdx?] at h ⊢
  by_cases hl : leadsWith p (c :: cs) = true
  · simp [hl]
  · simp only [hl, if_false]
    simpa using h

theorem hasSub_tail_of_not {p : List Char} {c : Char} {cs : List Char}
    (h : hasSub p (c :: cs) = false) : hasSub p cs = false := by
  cases hcs : hasSub p cs with
  | false => rfl
  | true =>
    rw [hasSub_cons_of_tail hcs] at h
    cases h

theorem hasSub_append_right {p a b : List Char} (h : hasSub p b = true) :
    hasSub p (a ++ b) = true := by
  induction a with
  | nil => simpa using h
  | cons c cs ih => exact hasSub_cons_of_tail ih

theorem hasSub_drop_of_not {p a b : List Char} (h : hasSub p (a ++ b) = false) :
    hasSub p b = false := by
  cases hb : hasSub p b with
  | false => rfl
  | true =>
    rw [hasSub_append_right (a := a) hb] at h
    cases h

theorem mkToken_has_mtok (n : Nat) : leadsWith mtok11 (mkToken n).data = true := by
  rw [mkToken_data, List.append_assoc]
  exact leadsWith_append_self mtok11 _

theorem leadsWith_append_left_cancel {a b c : List Char} :
    leadsWith (a ++ b) (a ++ c) = leadsWith b c := by
  induction a with
  | nil => rfl
  | cons d ds ih => simpa [leadsWith] using ih

theorem natDigits_ne_und (n : Nat) : ∀ c ∈ natDigits n, ¬ c = '_' := by
  intro c hc
  obtain ⟨_, h2⟩ := natDigits_digit n c hc
  rintro rfl
  exact absurd h2 (by decide)

theorem digits_eq_of_leads : ∀ (dj di : List Char), (∀ c ∈ dj, ¬ c = '_') →
    (∀ c ∈ di, ¬ c = '_') → ∀ r : List Char,
    leadsWith (dj ++ ['_', '_']) ((di ++ ['_', '_']) ++ r) = true → dj = di := by
  intro dj
  induction dj with
  | nil =>
    intro di _ hdi r h
    cases di with
    | nil => rfl
    | cons d ds =>
      simp only [List.nil_append, List.cons_append, leadsWith, Bool.and_eq_true,
        beq_iff_eq] at h
      exact absurd h.1.symm (hdi d (List.mem_cons_self d ds))
  | cons a dj' ih =>
    intro di hdj hdi r h
    cases di with
    | nil =>
      simp only [List.cons_append, List.nil_append, leadsWith, Bool.and_eq_true,
        beq_iff_eq] at h
      exact absurd h.1 (hdj a (List.mem_cons_self a dj'))
    | cons d ds =>
      simp only [List.cons_append, leadsWith, Bool.and_eq_true, beq_iff_eq] at h
      have htl : leadsWith (dj' ++ ['_', '_']) ((ds ++ ['_', '_']) ++ r) = true := by
        have := h.2
        simpa [List.cons_append] using this
      have := ih ds (fun c hc => hdj c (List.mem_cons_of_mem a hc))
        (fun c hc => hdi c (List.mem_cons_of_mem d hc)) r htl
      rw [h.1, this]

theorem mkToken_leads {j i : Nat} {r : List Char}
    (h : leadsWith (mkToken j).data ((mkToken i).data ++ r) = true) : j = i := by
  rw [mkToken_data, mkToken_data] at h
  rw [List.append_assoc, List.append_assoc, List.append_assoc] at h
  rw [← List.append_assoc (natDigits i)] at h
  rw [leadsWith_append_left_cancel] at h
  exact natDigits_inj (digits_eq_of_leads (natDigits j) (natDigits i)
    (natDigits_ne_und j) (natDigits_ne_und i) r h)

theorem chain_split {S : List (String × String)} (hS : ∀ p ∈ S, ∃ k, p.1 = mkToken k) :
    ∀ (m : List Char), m ≠ [] → tokCharB m.getLastI = false → hasSub mtok11 m = false →
    ∀ b x, Chain S (m ++ b) x → ∃ x₂, x = m ++ x₂ ∧ Chain S b x₂ := by
  intro m
  induction m with
  | nil => intro h; exact absurd rfl h
  | cons c m' ih =>
    intro _ hlast hsub b x hch
    rcases chain_inv hch with ⟨ho, _⟩ | ⟨c₀, out₂, x₂, ho, hx, hch₂⟩ |
      ⟨t, tm, out₂, x₂, hmem, ho, hx, hch₂⟩
    · simp at ho
    · simp only [List.cons_append, List.cons.injEq] at ho
      obtain ⟨rfl, ho2⟩ := ho
      by_cases hm' : m' = []
      · subst hm'
        simp only [List.nil_append] at ho2
        subst ho2
        exact ⟨x₂, by simpa using hx, hch₂⟩
      · have hlast' : tokCharB m'.getLastI = false := by
          rwa [getLastI_cons hm'] at hlast
        have hsub' : hasSub mtok11 m' = false := hasSub_tail_of_not hsub
        obtain ⟨x₃, hx3, hch₃⟩ := ih hm' hlast' hsub' b x₂ (ho2 ▸ hch₂)
        exact ⟨x₃, by rw [hx, hx3]; rfl, hch₃⟩
    · obtain ⟨k, hk⟩ := hS _ hmem
      have hk' : t = mkToken k := hk
      rcases le_or_lt t.data.length (c :: m').length with hle | hgt
      · have hlw : leadsWith t.data ((c :: m') ++ b) = true := by
          rw [ho]
          exact leadsWith_append_self _ _
        have h1 : leadsWith t.data (c :: m') = true := leadsWith_short_of_append hlw hle
        have h2 : leadsWith mtok11 (c :: m') = true := by
          apply leadsWith_trans _ h1
          rw [hk']
          exact mkToken_has_mtok k
        rw [hasSub_of_leadsWith h2] at hsub
        cases hsub
      · have hlw : leadsWith t.data ((c :: m') ++ b) = true := by
          rw [ho]
          exact leadsWith_append_self _ _
        have htk : List.take (c :: m').length t.data = c :: m' :=
          take_eq_of_leadsWith_long hlw (Nat.le_of_lt hgt)
        have hmm : (c :: m').getLastI ∈ t.data := by
          apply List.take_subset (c :: m').length t.data
          rw [htk]
          exact getLastI_mem _ (by simp)
        have := mkToken_tokChar k ((c :: m').getLastI) (hk' ▸ hmm)
        rw [this] at hlast
        cases hlast

theorem chain_splitTok {Δ : List (String × String)}
    (hΔ : ∀ p ∈ Δ, p.2.data ≠ [] ∧ tokCharB p.2.data.headI = false) :
    ∀ (t : List Char), (∀ c ∈ t, tokCharB c = true) → ∀ mid₂ out,
      Chain Δ out (t ++ mid₂) → ∃ out₂, out = t ++ out₂ ∧ Chain Δ out₂ mid₂ := by
  intro t
  induction t with
  | nil =>
    intro _ mid₂ out hch
    exact ⟨out, rfl, by simpa using hch⟩
  | cons c t' ih =>
    intro htc mid₂ out hch
    rcases chain_inv hch with ⟨_, hx⟩ | ⟨c₀, out₂, x₂, ho, hx, hch₂⟩ |
      ⟨tk, mk, out₂, x₂, hmem, ho, hx, hch₂⟩
    · simp at hx
    · simp only [List.cons_append, List.cons.injEq] at hx
      obtain ⟨rfl, hx2⟩ := hx
      obtain ⟨out₃, ho3, hch₃⟩ := ih (fun d hd => htc d (List.mem_cons_of_mem _ hd))
        mid₂ out₂ (hx2 ▸ hch₂)
      exact ⟨out₃, by rw [ho, ho3]; rfl, hch₃⟩
    · obtain ⟨hne, hhead⟩ := hΔ _ hmem
      have hh : mk.data.headI = c := by
        have h1 : (mk.data ++ x₂).headI = mk.data.headI := headI_append hne
        rw [← hx] at h1
        simpa using h1.symm
      rw [hh] at hhead
      rw [htc c (List.mem_cons_self c t')] at hhead
      cases hhead

theorem chain_compose {S0 Δ S : List (String × String)}
    (hS : ∀ p ∈ S, ∃ k, p.1 = mkToken k)
    (hΔg : ∀ p ∈ Δ, p.2.data ≠ [] ∧ tokCharB p.2.data.headI = false ∧
      tokCharB p.2.data.getLastI = false ∧ hasSub mtok11 p.2.data = false)
    (hΔ0 : ∀ p ∈ Δ, p ∈ S0) (hS0 : ∀ p ∈ S, p ∈ S0) :
    ∀ n (mid out x : List Char), mid.length ≤ n →
      Chain Δ out mid → Chain S mid x → Chain S0 out x := by
  intro n
  induction n with
  | zero =>
    intro mid out x hlen hd hs
    have hmid : mid = [] := by
      cases mid with
      | nil => rfl
      | cons a b => simp at hlen
    subst hmid
    have hx : x = [] := by
      rcases chain_inv hs with ⟨_, hx⟩ | ⟨c, o2, x2, ho, _, _⟩ | ⟨t, m, o2, x2, hmem, ho, _, _⟩
      · exact hx
      · cases ho
      · obtain ⟨k, hk⟩ := hS _ hmem
        have hk' : t = mkToken k := hk
        have hne : t.data ≠ [] := by rw [hk']; exact mkToken_ne_nil k
        rw [List.nil_eq, List.append_eq_nil] at ho
        exact absurd ho.1 hne
    subst hx
    have hout : out = [] := chain_src_nil hd rfl (fun p hp => (hΔg p hp).1)
    subst hout
    exact Chain.nil
  | succ n ih =>
    intro mid out x hlen hd hs
    rcases chain_inv hd with ⟨ho, hm⟩ | ⟨c, out₂, mid₂, ho, hm, hd₂⟩ |
      ⟨tc, mc, out₂, mid₄, hmemc, ho, hm, hd₂⟩
    · subst ho
      subst hm
      have hx : x = [] := by
        rcases chain_inv hs with ⟨_, hx⟩ | ⟨c, o2, x2, ho2, _, _⟩ |
          ⟨t, m, o2, x2, hmem, ho2, _, _⟩
        · exact hx
        · cases ho2
        · obtain ⟨k, hk⟩ := hS _ hmem
          have hk' : t = mkToken k := hk
          have hne : t.data ≠ [] := by rw [hk']; exact mkToken_ne_nil k
          rw [List.nil_eq, List.append_eq_nil] at ho2
          exact absurd ho2.1 hne
      subst hx
      exact Chain.nil
    · subst ho
      subst hm
      rcases chain_inv hs with ⟨ho2, _⟩ | ⟨c₀, mid₃, x₂, ho2, hx2, hs₂⟩ |
        ⟨t, m, mid₃, x₃, hmem, ho2, hx3, hs₂⟩
      · cases ho2
      · simp only [List.cons.injEq] at ho2
        obtain ⟨he1, he2⟩ := ho2
        subst he1
        subst he2
        subst hx2
        have hrec := ih mid₂ out₂ x₂ (by simpa using hlen) hd₂ hs₂
        exact Chain.keep c hrec
      · obtain ⟨k, hk⟩ := hS _ hmem
        have hk' : t = mkToken k := hk
        have htchars : ∀ d ∈ t.data, tokCharB d = true := by
          rw [hk']
          exact mkToken_tokChar k
        obtain ⟨out₃, ho3, hd₃⟩ := chain_splitTok
          (fun p hp => ⟨(hΔg p hp).1, (hΔg p hp).2.1⟩) t.data htchars mid₃
          (c :: out₂) (ho2 ▸ Chain.keep c hd₂)
        have hlen3 : mid₃.length ≤ n := by
          have h1 : (c :: mid₂).length ≤ n + 1 := hlen
          have h2 : (c :: mid₂).length = t.data.length + mid₃.length := by
            rw [ho2]
            simp
          have h3 : 0 < t.data.length := by
            rw [hk']
            exact List.length_pos.mpr (mkToken_ne_nil k)
          simp only [List.length_cons] at h1 h2
          omega
        have hrec := ih mid₃ out₃ x₃ hlen3 hd₃ hs₂
        rw [hx3, ho3]
        exact Chain.subst t m (hS0 _ hmem) hrec
    · obtain ⟨hne, hhd, hlst, hsb⟩ := hΔg _ hmemc
      obtain ⟨x₄, hx4, hs₄⟩ := chain_split hS mc.data hne hlst hsb mid₄ x (hm ▸ hs)
      have hlen4 : mid₄.length ≤ n := by
        have h2 : mid.length = mc.data.length + mid₄.length := by
          rw [hm]
          simp
        have h3 : 0 < mc.data.length := List.length_pos.mpr hne
        omega
      have hrec := ih mid₄ out₂ x₄ hlen4 hd₂ hs₄
      rw [hx4, ho]
      exact Chain.subst tc mc (hΔ0 _ hmemc) hrec

theorem storeNamesOK_mk {S : List (String × String)} (h : storeNamesOK S) :
    ∀ p ∈ S, ∃ k, p.1 = mkToken k := by
  intro p hp
  obtain ⟨i, hi⟩ := List.getElem?_of_mem hp
  exact ⟨i, h i p hi⟩

theorem chain_nil_store : ∀ {out x : List Char}, Chain [] out x → out = x := by
  intro out x h
  induction h with
  | nil => rfl
  | keep c _ ih => rw [ih]
  | subst t m hm _ _ => simp at hm

theorem chain_no_M_seg {S : List (String × String)} (hS : ∀ p ∈ S, ∃ k, p.1 = mkToken k) :
    ∀ (w : List Char), (∀ c ∈ w, ¬ c = 'M') → ∀ out x, Chain S out x →
      leadsWith w out = true → leadsWith w x = true := by
  intro w
  induction w with
  | nil => intro _ out x _ _; simp [leadsWith]
  | cons d w' ih =>
    intro hw out x hch hlw
    rcases chain_inv hch with ⟨ho, hx⟩ | ⟨c, out₂, x₂, ho, hx, hch₂⟩ |
      ⟨t, m, out₂, x₂, hmem, ho, hx, hch₂⟩
    · subst ho
      simp [leadsWith] at hlw
    · subst ho
      subst hx
      simp only [leadsWith, Bool.and_eq_true, beq_iff_eq] at hlw ⊢
      exact ⟨hlw.1, ih (fun e he => hw e (List.mem_cons_of_mem d he)) out₂ x₂ hch₂ hlw.2⟩
    · obtain ⟨k, hk⟩ := hS _ hmem
      have hk' : t = mkToken k := hk
      subst ho
      rw [hk', mkToken_cons, List.cons_append] at hlw
      simp only [leadsWith, Bool.and_eq_true, beq_iff_eq] at hlw
      exact absurd hlw.1 (hw d (List.mem_cons_self d w'))

theorem chain_keep_no_tok {S : List (String × String)} (hS : ∀ p ∈ S, ∃ k, p.1 = mkToken k)
    {c : Char} {out₂ x₂ : List Char} (hch : Chain S out₂ x₂)
    (hsub : hasSub mtok11 (c :: x₂) = false) (j : Nat)
    (hlw : leadsWith (mkToken j).data (c :: out₂) = true) : False := by
  rw [mkToken_cons] at hlw
  simp only [leadsWith, Bool.and_eq_true, beq_iff_eq] at hlw
  obtain ⟨hM, htl⟩ := hlw
  have h2 : leadsWith (mkTail j) x₂ = true :=
    chain_no_M_seg hS (mkTail j) (mkTail_no_M j) out₂ x₂ hch htl
  have hlen10 : 10 ≤ (mkTail j).length := by
    simp only [mkTail, List.length_append]
    have h10 : (['A', 'T', 'H', '_', 'T', 'O', 'K', 'E', 'N', '_'] : List Char).length = 10 := rfl
    have h2 : (['_', '_'] : List Char).length = 2 := rfl
    omega
  have htake : List.take 10 (mkTail j) = "ATH_TOKEN_".data := rfl
  have h3 : leadsWith ("ATH_TOKEN_".data) x₂ = true := by
    have h4 := leadsWith_weaken h2 10 hlen10
    rwa [htake] at h4
  have h5 : leadsWith mtok11 (c :: x₂) = true := by
    have hsh : mtok11 = 'M' :: "ATH_TOKEN_".data := rfl
    rw [hsh]
    simp only [leadsWith, Bool.and_eq_true, beq_iff_eq]
    exact ⟨hM, h3⟩
  rw [hasSub_of_leadsWith h5] at hsub
  cases hsub

theorem find?_eq_of_unique {α : Type} {p : α → Bool} :
    ∀ {l : List α} {a : α}, a ∈ l → p a = true → (∀ b ∈ l, p b = true → b = a) →
      l.find? p = some a := by
  intro l
  induction l with
  | nil => intro a ha; simp at ha
  | cons hd tl ih =>
    intro a ha hpa huniq
    by_cases hphd : p hd = true
    · rw [List.find?_cons_of_pos _ hphd]
      rw [huniq hd (List.mem_cons_self hd tl) hphd]
    · rw [List.find?_cons_of_neg _ hphd]
      have hatl : a ∈ tl := by
        rcases List.mem_cons.mp ha with rfl | h
        · exact absurd hpa hphd
        · exact h
      exact ih hatl hpa (fun b hb hpb => huniq b (List.mem_cons_of_mem hd hb) hpb)

theorem findTok_keep_none {S : List (String × String)} (hS : ∀ p ∈ S, ∃ k, p.1 = mkToken k)
    {c : Char} {out₂ x₂ : List Char} (hch : Chain S out₂ x₂)
    (hsub : hasSub mtok11 (c :: x₂) = false) : findTok S (c :: out₂) = none := by
  rw [findTok, List.find?_eq_none]
  intro p hp
  obtain ⟨j, hj⟩ := hS _ hp
  intro hpred
  simp only [Bool.and_eq_true] at hpred
  have hlw : leadsWith p.1.data (c :: out₂) = true := hpred.2
  rw [hj] at hlw
  exact chain_keep_no_tok hS hch hsub j hlw

theorem findTok_subst {S : List (String × String)} (hmk : ∀ p ∈ S, ∃ k, p.1 = mkToken k)
    (hKeys : ∀ p ∈ S, ∀ q ∈ S, p.1 = q.1 → p = q)
    {t m : String} (hmem : (t, m) ∈ S) {k : Nat} (hk : t = mkToken k) (rest : List Char) :
    findTok S (t.data ++ rest) = some (t, m) := by
  apply find?_eq_of_unique hmem
  · simp only [Bool.and_eq_true, Bool.not_eq_true']
    constructor
    · show t.data.isEmpty = false
      rw [hk]
      cases hh : (mkToken k).data with
      | nil => exact absurd hh (mkToken_ne_nil k)
      | cons a b => rfl
    · exact leadsWith_append_self _ _
  · intro b hb hpb
    simp only [Bool.and_eq_true] at hpb
    obtain ⟨j, hj⟩ := hmk _ hb
    have hlw : leadsWith b.1.data (t.data ++ rest) = true := hpb.2
    rw [hj, hk] at hlw
    have hjk : j = k := mkToken_leads hlw
    have hb1 : b.1 = t := by rw [hj, hjk, hk]
    exact hKeys b hb (t, m) hmem hb1

theorem expandF_chain {S : List (String × String)} (hmk : ∀ p ∈ S, ∃ k, p.1 = mkToken k)
    (hKeys : ∀ p ∈ S, ∀ q ∈ S, p.1 = q.1 → p = q) :
    ∀ out x, Chain S out x → ∀ fuel, hasSub mtok11 x = false → out.length < fuel →
      expandF S fuel out = x := by
  intro out x hch
  induction hch with
  | nil =>
    intro fuel _ _
    cases fuel with
    | zero => rfl
    | succ f => rfl
  | @keep c out₂ x₂ hch₂ ih =>
    intro fuel hsub hlen
    cases fuel with
    | zero => exact absurd hlen (Nat.not_lt_zero _)
    | succ f =>
      have hnone := findTok_keep_none hmk hch₂ hsub
      simp only [expandF, hnone]
      have hlen2 : out₂.length < f := by
        simp only [List.length_cons] at hlen
        omega
      rw [ih f (hasSub_tail_of_not hsub) hlen2]
  | @subst t m out₂ x₂ hmem hch₂ ih =>
    intro fuel hsub hlen
    obtain ⟨k, hk⟩ := hmk _ hmem
    have hk' : t = mkToken k := hk
    cases fuel with
    | zero => exact absurd hlen (Nat.not_lt_zero _)
    | succ f =>
      have hfind := findTok_subst hmk hKeys hmem hk' out₂
      obtain ⟨d, ds, hds⟩ : ∃ d ds, t.data = d :: ds := by
        rw [hk', mkToken_cons]
        exact ⟨_, _, rfl⟩
      have hdrop : List.drop t.data.length ((d :: ds) ++ out₂) = out₂ := by
        rw [← hds, List.drop_left]
      rw [hds] at hfind hdrop ⊢
      simp only [List.cons_append] at hfind hdrop ⊢
      simp only [expandF, hfind]
      have hlen2 : out₂.length < f := by
        rw [List.length_append, hds] at hlen
        simp only [List.length_cons] at hlen
        omega
      rw [hds, hdrop, ih f (hasSub_drop_of_not hsub) hlen2]

theorem mk_data (s : String) : String.mk s.data = s := rfl

set_option maxHeartbeats 4000000 in
/-- C1: the claim is false as stated.  On the input `"$$ <math>a</math> $$"`,
whose `$$...$$` container contains a well-formed `<math>` element, the
`<math>` pass records `MATH_TOKEN_0__` inside the original stored for the
later `$$` pass; `restore_math` substitutes each token once without
rescanning the replacement, so the inner token survives and the round trip
does not return the input. -/
theorem c1_roundtrip_counterexample :
    restore_math (protect_math "$$ <math>a</math> $$").2
        (protect_math "$$ <math>a</math> $$").1 ≠ "$$ <math>a</math> $$" := by
  decide

set_option maxHeartbeats 4000000 in
/-- C1 (amended): `restore_math (protect_math x)` returns `x` exactly,
provided (i) `x` contains no literal token head `MATH_TOKEN_` and
(ii) no recognized math container nests inside another recognized
container across passes — formally, no original recorded in the final
`MATH_STORE` contains the token head `MATH_TOKEN_`. -/
theorem c1_roundtrip_amended (x : String)
    (hx : hasSub mtok11 x.data = false)
    (hm : ∀ p ∈ (protect_math x).2, hasSub mtok11 p.2.data = false) :
    restore_math (protect_math x).2 (protect_math x).1 = x := by
  obtain ⟨C1, Δ1, he1, hc1, hn1, hq1⟩ :=
    subScanF_spec matchScript goodSegL matchScript_good (x.data.length + 1) x.data [] []
      (Nat.lt_succ_self _)
  have e1 : runPass matchScript [] x.data = (C1, Δ1) := by
    rw [runPass, he1]
    simp
  obtain ⟨C2, Δ2, he2, hc2, hn2, hq2⟩ :=
    subScanF_spec (matchTag "<mjx-container".data "</mjx-container>".data) goodSegL
      (matchTag_good (by decide) (by decide) (by decide) (by decide))
      (C1.length + 1) C1 Δ1 [] (Nat.lt_succ_self _)
  have e2 : runPass (matchTag "<mjx-container".data "</mjx-container>".data) Δ1 C1 =
      (C2, Δ1 ++ Δ2) := by
    rw [runPass, he2]
    simp
  obtain ⟨C3, Δ3, he3, hc3, hn3, hq3⟩ :=
    subScanF_spec (matchTag "<math".data "</math>".data) goodSegL
      (matchTag_good (by decide) (by decide) (by decide) (by decide))
      (C2.length + 1) C2 (Δ1 ++ Δ2) [] (Nat.lt_succ_self _)
  have e3 : runPass (matchTag "<math".data "</math>".data) (Δ1 ++ Δ2) C2 =
      (C3, (Δ1 ++ Δ2) ++ Δ3) := by
    rw [runPass, he3]
    simp
  obtain ⟨C4, Δ4, he4, hc4, hn4, hq4⟩ :=
    subScanF_spec (matchDelim ['\\', '['] ['\\', ']']) goodSegL
      (matchDelim_good (by decide) (by decide) (by decide) (by decide))
      (C3.length + 1) C3 ((Δ1 ++ Δ2) ++ Δ3) [] (Nat.lt_succ_self _)
  have e4 : runPass (matchDelim ['\\', '['] ['\\', ']']) ((Δ1 ++ Δ2) ++ Δ3) C3 =
      (C4, ((Δ1 ++ Δ2) ++ Δ3) ++ Δ4) := by
    rw [runPass, he4]
    simp
  obtain ⟨C5, Δ5, he5, hc5, hn5, hq5⟩ :=
    subScanF_spec (matchDelim ['$', '$'] ['$', '$']) goodSegL
      (matchDelim_good (by decide) (by decide) (by decide) (by decide))
      (C4.length + 1) C4 (((Δ1 ++ Δ2) ++ Δ3) ++ Δ4) [] (Nat.lt_succ_self _)
  have e5 : runPass (matchDelim ['$', '$'] ['$', '$']) (((Δ1 ++ Δ2) ++ Δ3) ++ Δ4) C4 =
      (C5, (((Δ1 ++ Δ2) ++ Δ3) ++ Δ4) ++ Δ5) := by
    rw [runPass, he5]
    simp
  obtain ⟨C6, Δ6, he6, hc6, hn6, hq6⟩ :=
    subScanF_spec (matchDelim ['\\', '('] ['\\', ')']) goodSegL
      (matchDelim_good (by decide) (by decide) (by decide) (by decide))
      (C5.length + 1) C5 ((((Δ1 ++ Δ2) ++ Δ3) ++ Δ4) ++ Δ5) [] (Nat.lt_succ_self _)
  have e6 : runPass (matchDelim ['\\', '('] ['\\', ')'])
      ((((Δ1 ++ Δ2) ++ Δ3) ++ Δ4) ++ Δ5) C5 =
      (C6, (((((Δ1 ++ Δ2) ++ Δ3) ++ Δ4) ++ Δ5) ++ Δ6)) := by
    rw [runPass, he6]
    simp
  have ep : protect_math x = (String.mk C6, (((((Δ1 ++ Δ2) ++ Δ3) ++ Δ4) ++ Δ5) ++ Δ6)) := by
    simp only [protect_math, e1, e2, e3, e4, e5, e6]
  have hs1 : storeNamesOK Δ1 := by
    have h := hn1 storeNamesOK_nil
    simpa using h
  have hs2 : storeNamesOK (Δ1 ++ Δ2) := hn2 hs1
  have hs3 : storeNamesOK ((Δ1 ++ Δ2) ++ Δ3) := hn3 hs2
  have hs4 : storeNamesOK (((Δ1 ++ Δ2) ++ Δ3) ++ Δ4) := hn4 hs3
  have hs5 : storeNamesOK ((((Δ1 ++ Δ2) ++ Δ3) ++ Δ4) ++ Δ5) := hn5 hs4
  have hs6 : storeNamesOK (((((Δ1 ++ Δ2) ++ Δ3) ++ Δ4) ++ Δ5) ++ Δ6) := hn6 hs5
  have hmk := storeNamesOK_mk hs6
  have hKeys := storeNames_unique hs6
  have hin1 : ∀ p ∈ Δ1, p ∈ (((((Δ1 ++ Δ2) ++ Δ3) ++ Δ4) ++ Δ5) ++ Δ6) := by
    intro p hp
    simp only [List.mem_append]
    tauto
  have hin2 : ∀ p ∈ Δ2, p ∈ (((((Δ1 ++ Δ2) ++ Δ3) ++ Δ4) ++ Δ5) ++ Δ6) := by
    intro p hp
    simp only [List.mem_append]
    tauto
  have hin3 : ∀ p ∈ Δ3, p ∈ (((((Δ1 ++ Δ2) ++ Δ3) ++ Δ4) ++ Δ5) ++ Δ6) := by
    intro p hp
    simp only [List.mem_append]
    tauto
  have hin4 : ∀ p ∈ Δ4, p ∈ (((((Δ1 ++ Δ2) ++ Δ3) ++ Δ4) ++ Δ5) ++ Δ6) := by
    intro p hp
    simp only [List.mem_append]
    tauto
  have hin5 : ∀ p ∈ Δ5, p ∈ (((((Δ1 ++ Δ2) ++ Δ3) ++ Δ4) ++ Δ5) ++ Δ6) := by
    intro p hp
    simp only [List.mem_append]
    tauto
  have hin6 : ∀ p ∈ Δ6, p ∈ (((((Δ1 ++ Δ2) ++ Δ3) ++ Δ4) ++ Δ5) ++ Δ6) := by
    intro p hp
    simp only [List.mem_append]
    tauto
  have hmS : ∀ p ∈ (((((Δ1 ++ Δ2) ++ Δ3) ++ Δ4) ++ Δ5) ++ Δ6),
      hasSub mtok11 p.2.data = false := by
    intro p hp
    apply hm
    rw [ep]
    exact hp
  have hg2 : ∀ p ∈ Δ2, p.2.data ≠ [] ∧ tokCharB p.2.data.headI = false ∧
      tokCharB p.2.data.getLastI = false ∧ hasSub mtok11 p.2.data = false := by
    intro p hp
    obtain ⟨⟨hne, hh, hl⟩, _⟩ := hq2 p hp
    exact ⟨hne, hh, hl, hmS p (hin2 p hp)⟩
  have hg3 : ∀ p ∈ Δ3, p.2.data ≠ [] ∧ tokCharB p.2.data.headI = false ∧
      tokCharB p.2.data.getLastI = false ∧ hasSub mtok11 p.2.data = false := by
    intro p hp
    obtain ⟨⟨hne, hh, hl⟩, _⟩ := hq3 p hp
    exact ⟨hne, hh, hl, hmS p (hin3 p hp)⟩
  have hg4 : ∀ p ∈ Δ4, p.2.data ≠ [] ∧ tokCharB p.2.data.headI = false ∧
      tokCharB p.2.data.getLastI = false ∧ hasSub mtok11 p.2.data = false := by
    intro p hp
    obtain ⟨⟨hne, hh, hl⟩, _⟩ := hq4 p hp
    exact ⟨hne, hh, hl, hmS p (hin4 p hp)⟩
  have hg5 : ∀ p ∈ Δ5, p.2.data ≠ [] ∧ tokCharB p.2.data.headI = false ∧
      tokCharB p.2.data.getLastI = false ∧ hasSub mtok11 p.2.data = false := by
    intro p hp
    obtain ⟨⟨hne, hh, hl⟩, _⟩ := hq5 p hp
    exact ⟨hne, hh, hl, hmS p (hin5 p hp)⟩
  have hg6 : ∀ p ∈ Δ6, p.2.data ≠ [] ∧ tokCharB p.2.data.headI = false ∧
      tokCharB p.2.data.getLastI = false ∧ hasSub mtok11 p.2.data = false := by
    intro p hp
    obtain ⟨⟨hne, hh, hl⟩, _⟩ := hq6 p hp
    exact ⟨hne, hh, hl, hmS p (hin6 p hp)⟩
  have H1 : Chain (((((Δ1 ++ Δ2) ++ Δ3) ++ Δ4) ++ Δ5) ++ Δ6) C1 x.data :=
    chain_mono hc1 hin1
  have H2 : Chain (((((Δ1 ++ Δ2) ++ Δ3) ++ Δ4) ++ Δ5) ++ Δ6) C2 x.data :=
    chain_compose hmk hg2 hin2 (fun p hp => hp) C1.length C1 C2 x.data
      (Nat.le_refl _) hc2 H1
  have H3 : Chain (((((Δ1 ++ Δ2) ++ Δ3) ++ Δ4) ++ Δ5) ++ Δ6) C3 x.data :=
    chain_compose hmk hg3 hin3 (fun p hp => hp) C2.length C2 C3 x.data
      (Nat.le_refl _) hc3 H2
  have H4 : Chain (((((Δ1 ++ Δ2) ++ Δ3) ++ Δ4) ++ Δ5) ++ Δ6) C4 x.data :=
    chain_compose hmk hg4 hin4 (fun p hp => hp) C3.length C3 C4 x.data
      (Nat.le_refl _) hc4 H3
  have H5 : Chain (((((Δ1 ++ Δ2) ++ Δ3) ++ Δ4) ++ Δ5) ++ Δ6) C5 x.data :=
    chain_compose hmk hg5 hin5 (fun p hp => hp) C4.length C4 C5 x.data
      (Nat.le_refl _) hc5 H4
  have H6 : Chain (((((Δ1 ++ Δ2) ++ Δ3) ++ Δ4) ++ Δ5) ++ Δ6) C6 x.data :=
    chain_compose hmk hg6 hin6 (fun p hp => hp) C5.length C5 C6 x.data
      (Nat.le_refl _) hc6 H5
  rw [ep]
  by_cases hSe : ((((((Δ1 ++ Δ2) ++ Δ3) ++ Δ4) ++ Δ5) ++ Δ6) : List (String × String)) = []
  · have hC6 : C6 = x.data := by
      rw [hSe] at H6
      exact chain_nil_store H6
    show restore_math _ (String.mk C6) = x
    rw [restore_math, hSe]
    simp only [List.isEmpty_nil, if_true]
    rw [hC6, mk_data]
  · have hexp := expandF_chain hmk hKeys C6 x.data H6 (C6.length + 1) hx (Nat.lt_succ_self _)
    show restore_math _ (String.mk C6) = x
    rw [restore_math]
    have hne : ((((((Δ1 ++ Δ2) ++ Δ3) ++ Δ4) ++ Δ5) ++ Δ6) : List (String × String)).isEmpty =
        false := by
      cases hc : ((((((Δ1 ++ Δ2) ++ Δ3) ++ Δ4) ++ Δ5) ++ Δ6) : List (String × String)).isEmpty
        with
      | false => rfl
      | true => exact absurd (List.isEmpty_iff.mp hc) hSe
    rw [hne]
    simp only [Bool.false_eq_true, if_false]
    show String.mk (expandF _ (C6.length + 1) C6) = x
    rw [hexp, mk_data]

/-- C1 (amended) witness: a string with one `\(...\)` container and no
nesting satisfies both hypotheses and round-trips exactly. -/
theorem c1_roundtrip_amended_witness :
    restore_math (protect_math "a \\(x^2\\) b").2 (protect_math "a \\(x^2\\) b").1 =
      "a \\(x^2\\) b" :=
  c1_roundtrip_amended "a \\(x^2\\) b" (by decide) (by decide)

/-- C9: when the token table is empty (as after a `protect_math` call that
recorded nothing), `restore_math` returns its input unchanged. -/
theorem c9_restore_empty_identity (s : String) : restore_math [] s = s := rfl

/-- C2: the claim is false on the A4 unified renumbering pass.  With the
section counter at 3 in chapter 7, two immediately consecutive `h3`
enrichment headings are assigned `7.4` and `7.5` — the pass increments the
section counter for the second as well (final counter 5), instead of
classifying it as subsection `7.4.1`. -/
theorem c2_renumber_counterexample :
    ((a4Run 7 ⟨3, 0, 0⟩
        [⟨"h3", ["enrichment-title"], "Enrichment: Vanishing Gradients"⟩,
         ⟨"h3", ["enrichment-title"], "Enrichment: Exploding Gradients"⟩]).2.map
      Prod.fst) = [some "7.4", some "7.5"] ∧
    (a4Run 7 ⟨3, 0, 0⟩
        [⟨"h3", ["enrichment-title"], "Enrichment: Vanishing Gradients"⟩,
         ⟨"h3", ["enrichment-title"], "Enrichment: Exploding Gradients"⟩]).1.sec = 5 ∧
    (some "7.5" : Option String) ≠ some "7.4.1" := by
  decide

/-- C2 (amended): the body renumbering pass (A4) gives both consecutive
`h3` enrichments fresh section numbers, `7.4` and `7.5`, incrementing the
section counter each time; the contiguous-run subsection rule lives only
in `extract_toc_from_body`, whose pass 2 groups the two headings and
displays the second as subsection `7.4.1` of the first in the TOC. -/
theorem c2_renumber_amended :
    (a4Run 7 ⟨3, 0, 0⟩
        [⟨"h3", ["enrichment-title"], "Enrichment: Vanishing Gradients"⟩,
         ⟨"h3", ["enrichment-title"], "Enrichment: Exploding Gradients"⟩]).2 =
      [(some "7.4", "Enrichment 7.4: Vanishing Gradients"),
       (some "7.5", "Enrichment 7.5: Exploding Gradients")] ∧
    ((tocPass2 [mkTocH 7 "h3" "e1" "Enrichment 7.4: Vanishing Gradients",
        mkTocH 7 "h3" "e2" "Enrichment 7.5: Exploding Gradients"]).map
      (fun e => (e.2.1, e.2.2))) =
      [("7.4 Vanishing Gradients", false), ("7.4.1 Exploding Gradients", true)] := by
  decide

theorem foldl_add_acc : ∀ (l : List Nat) (a : Nat),
    l.foldl (fun x y => x + y) a = a + l.foldl (fun x y => x + y) 0 := by
  intro l
  induction l with
  | nil => intro a; simp
  | cons b bs ih =>
    intro a
    rw [List.foldl_cons, ih, List.foldl_cons, ih (0 + b)]
    omega

theorem rowCols_cons (c : Nat) (cs : List Nat) : rowCols (c :: cs) = c + rowCols cs := by
  show List.foldl (fun x y => x + y) (0 + c) cs = c + rowCols cs
  rw [foldl_add_acc]
  show 0 + c + List.foldl (fun x y => x + y) 0 cs = c + List.foldl (fun x y => x + y) 0 cs
  omega

theorem widen_sum : ∀ (r : List Nat) (s : Nat), (∃ c ∈ r, 1 < c) →
    rowCols (widenFirstGrouped s r) = rowCols r + s := by
  intro r
  induction r with
  | nil =>
    intro s h
    simp at h
  | cons c cs ih =>
    intro s h
    by_cases hc : 1 < c
    · simp only [widenFirstGrouped, if_pos hc]
      rw [rowCols_cons, rowCols_cons]
      omega
    · simp only [widenFirstGrouped, if_neg hc]
      rw [rowCols_cons, rowCols_cons]
      have h2 : ∃ d ∈ cs, 1 < d := by
        obtain ⟨d, hd, hd2⟩ := h
        rcases List.mem_cons.mp hd with rfl | hmem
        · exact absurd hd2 hc
        · exact ⟨d, hmem, hd2⟩
      rw [ih s h2]
      omega

theorem widen_id : ∀ (r : List Nat) (s : Nat), (∀ c ∈ r, c ≤ 1) →
    widenFirstGrouped s r = r := by
  intro r
  induction r with
  | nil => intro s _; rfl
  | cons c cs ih =>
    intro s h
    have hc : ¬ 1 < c := by
      have := h c (List.mem_cons_self c cs)
      omega
    simp only [widenFirstGrouped, if_neg hc]
    rw [ih s (fun d hd => h d (List.mem_cons_of_mem c hd))]

/-- C3: false as stated.  A header row with colspans `[1, 1]` against
4-column data rows contains no cell with `colspan > 1`, so the repair loop
finds nothing to widen and leaves the row unchanged: the second cell keeps
colspan 1 rather than becoming 3. -/
theorem c3_colspan_counterexample :
    autoFixColspan ⟨[[1, 1]], [[1, 1, 1, 1]]⟩ = ⟨[[1, 1]], [[1, 1, 1, 1]]⟩ ∧
    ((autoFixColspan ⟨[[1, 1]], [[1, 1, 1, 1]]⟩).theadRows.getD 0 []).getD 1 0 = 1 := by
  decide

/-- C3 (amended): the repair only fires on a header row that already has a
grouped cell (`colspan > 1`): the first such cell is widened by the
shortfall, bringing the row's total to the data width; a row whose cells
all have colspan 1 is left unchanged.  With header colspans `[1, 2]` and
4-column data, the second cell becomes colspan 3. -/
theorem c3_colspan_amended :
    (∀ (t : PTable) (r : List Nat), r ∈ t.theadRows → t.bodyRows.isEmpty = false →
      rowCols r < actualCols t → (∃ c ∈ r, 1 < c) →
      fixHeaderRow (actualCols t) r ∈ (autoFixColspan t).theadRows ∧
      rowCols (fixHeaderRow (actualCols t) r) = actualCols t) ∧
    (∀ (actual : Nat) (r : List Nat), (∀ c ∈ r, c ≤ 1) → fixHeaderRow actual r = r) ∧
    autoFixColspan ⟨[[1, 2]], [[1, 1, 1, 1]]⟩ = ⟨[[1, 3]], [[1, 1, 1, 1]]⟩ := by
  refine ⟨?_, ?_, by decide⟩
  · intro t r hmem hne hlt hgrp
    constructor
    · rw [autoFixColspan, if_neg (by rw [hne]; exact Bool.false_ne_true)]
      exact List.mem_map_of_mem _ hmem
    · rw [fixHeaderRow, if_pos hlt, widen_sum r _ hgrp]
      omega
  · intro actual r hall
    rw [fixHeaderRow]
    by_cases hlt : rowCols r < actual
    · rw [if_pos hlt, widen_id r _ hall]
    · rw [if_neg hlt]

/-- C3 (amended) witness at the concrete `[1, 2]` / 4-column table. -/
theorem c3_colspan_amended_witness :
    fixHeaderRow (actualCols ⟨[[1, 2]], [[1, 1, 1, 1]]⟩) [1, 2] ∈
      (autoFixColspan ⟨[[1, 2]], [[1, 1, 1, 1]]⟩).theadRows ∧
    rowCols (fixHeaderRow (actualCols ⟨[[1, 2]], [[1, 1, 1, 1]]⟩) [1, 2]) =
      actualCols ⟨[[1, 2]], [[1, 1, 1, 1]]⟩ :=
  c3_colspan_amended.1 ⟨[[1, 2]], [[1, 1, 1, 1]]⟩ [1, 2] (by decide) (by decide) (by decide)
    (by decide)

/-- C6: false as stated.  In a cell whose nested table has rows
`["a","b"]` and `["x","y","z"]`, the 3-cell row is skipped by the
flattening loop and then destroyed with the whole nested table by
`nested.decompose()`: the resulting cell content is exactly `"a b"` and no
trace of the 3-cell row remains in the output — it is removed, not left as
an error signal. -/
theorem c6_flatten_counterexample :
    cellTransform "" [["a", "b"], ["x", "y", "z"]] = "a b" ∧
    hasSub "x".data (cellTransform "" [["a", "b"], ["x", "y", "z"]]).data = false := by
  decide

/-- C6 (amended): each nested row with at most 2 cells whose joined text is
nonempty becomes one stacked line (cells joined with spaces); rows with
more than 2 cells contribute nothing and are removed together with the
nested table.  `flattenLines` equals the filter/map characterisation. -/
theorem c6_flatten_amended :
    ∀ rows : List (List String),
      flattenLines rows =
        ((rows.filter (fun r => decide (r.length ≤ 2))).map
          (fun r => pyStrip (joinSp r))).filter (fun t => !(t == "")) := by
  intro rows
  induction rows with
  | nil => rfl
  | cons r rs ih =>
    by_cases h2 : 2 < r.length
    · have hd : decide (r.length ≤ 2) = false := by
        simp only [decide_eq_false_iff_not]
        omega
      simp only [flattenLines, if_pos h2, List.filter_cons, hd, Bool.false_eq_true, if_false]
      exact ih
    · have hd : decide (r.length ≤ 2) = true := by
        simp only [decide_eq_true_eq]
        omega
      by_cases ht : (pyStrip (joinSp r) == "") = true
      · simp only [flattenLines, if_neg h2, ht, if_true, List.filter_cons, hd, if_true,
          List.map_cons, List.filter_cons, Bool.not_eq_true', ht, Bool.true_eq_false, if_false]
        exact ih
      · have ht' : (pyStrip (joinSp r) == "") = false := by
          cases hb : (pyStrip (joinSp r) == "") with
          | false => rfl
          | true => exact absurd hb ht
        simp only [flattenLines, if_neg h2, ht', Bool.false_eq_true, if_false,
          List.filter_cons, hd, if_true, List.map_cons, Bool.not_eq_true', ht',
          Bool.not_false, if_true]
        rw [ih]

/-- C8: false as stated for arbitrary inputs.  The wrap step only checks
whether some `table-wrapper` ancestor exists; a (pathological) table
already inside two wrappers is skipped and keeps two enclosing wrappers
after a run, not exactly one. -/
theorem c8_wrap_counterexample : (tableWrapRuns 1 ⟨2, false, false⟩).wrappers = 2 := by
  decide

theorem tableWrapRuns_one : ∀ (n : Nat) (t : TableCtx), t.wrappers = 1 →
    (tableWrapRuns n t).wrappers = 1 := by
  intro n
  induction n with
  | zero => intro t h; exact h
  | succ m ih =>
    intro t h
    show (tableWrapRuns m (tableWrapStep t)).wrappers = 1
    apply ih
    rw [tableWrapStep, if_neg (by simp [h])]
    exact h

/-- C8 (amended): a table with at most one enclosing wrapper ends with
exactly one wrapper after any positive number of runs (an unwrapped table
is wrapped once, a wrapped table is skipped), and the wrap step is
idempotent on every table context; only tables that already start with
two or more wrappers keep their count. -/
theorem c8_wrap_amended :
    (∀ (t : TableCtx) (n : Nat), t.wrappers ≤ 1 → 1 ≤ n →
      (tableWrapRuns n t).wrappers = 1) ∧
    (∀ t : TableCtx, tableWrapStep (tableWrapStep t) = tableWrapStep t) := by
  constructor
  · intro t n hw hn
    match n with
    | m + 1 =>
      show (tableWrapRuns m (tableWrapStep t)).wrappers = 1
      apply tableWrapRuns_one
      rw [tableWrapStep]
      by_cases h0 : t.wrappers = 0
      · rw [if_pos (by simp [h0])]
      · rw [if_neg (by simp [h0])]
        omega
  · intro t
    by_cases h0 : t.wrappers = 0
    · simp [tableWrapStep, h0]
    · simp [tableWrapStep, h0]

/-- C8 (amended) witness: a raw, unwrapped table gains exactly one wrapper
after one run. -/
theorem c8_wrap_amended_witness : (tableWrapRuns 1 ⟨0, false, false⟩).wrappers = 1 :=
  c8_wrap_amended.1 ⟨0, false, false⟩ 1 (by decide) (by decide)

theorem cand_inj (base : String) {k j : Nat}
    (h : base ++ "-" ++ natRepr k = base ++ "-" ++ natRepr j) : k = j := by
  have h2 := congrArg String.data h
  simp only [str_data_append] at h2
  exact natDigits_inj (List.append_cancel_left h2)

theorem exists_free (base : String) (used : List String) :
    ∃ i, i < used.length + 1 ∧
      used.contains (base ++ "-" ++ natRepr (2 + i)) = false := by
  by_contra hc
  push_neg at hc
  have hmem : ∀ i, i < used.length + 1 → (base ++ "-" ++ natRepr (2 + i)) ∈ used := by
    intro i hi
    have hne := hc i hi
    have hb : used.contains (base ++ "-" ++ natRepr (2 + i)) = true := by
      cases h : used.contains (base ++ "-" ++ natRepr (2 + i)) with
      | false => exact absurd h hne
      | true => rfl
    exact List.mem_of_elem_eq_true hb
  have hinj : Function.Injective (fun i => base ++ "-" ++ natRepr (2 + i)) := by
    intro a b hab
    have := cand_inj base hab
    omega
  have hsub : (List.range (used.length + 1)).map
      (fun i => base ++ "-" ++ natRepr (2 + i)) ⊆ used := by
    intro x hx
    obtain ⟨i, hi, rfl⟩ := List.mem_map.mp hx
    exact hmem i (List.mem_range.mp hi)
  have hnodup : ((List.range (used.length + 1)).map
      (fun i => base ++ "-" ++ natRepr (2 + i))).Nodup :=
    List.Nodup.map hinj (List.nodup_range _)
  have hle := List.Subperm.length_le (List.subperm_of_subset hnodup hsub)
  rw [List.length_map, List.length_range] at hle
  omega

theorem searchFreeF_some (base : String) (used : List String) :
    ∀ (fuel k : Nat),
      (∃ i, i < fuel ∧ used.contains (base ++ "-" ++ natRepr (k + i)) = false) →
      ∃ c, searchFreeF base used fuel k = some c ∧ used.contains c = false := by
  intro fuel
  induction fuel with
  | zero =>
    intro k h
    obtain ⟨i, hi, _⟩ := h
    omega
  | succ f ih =>
    intro k h
    obtain ⟨i, hi, hfree⟩ := h
    have hunf : searchFreeF base used (f + 1) k =
        if used.contains (base ++ "-" ++ natRepr k) = true then
          searchFreeF base used f (k + 1)
        else some (base ++ "-" ++ natRepr k) := rfl
    by_cases hck : used.contains (base ++ "-" ++ natRepr k) = true
    · rw [hunf, if_pos hck]
      apply ih
      have hi0 : i ≠ 0 := by
        intro h0
        subst h0
        rw [Nat.add_zero, hck] at hfree
        exact Bool.noConfusion hfree
      obtain ⟨j, rfl⟩ : ∃ j, i = j + 1 := ⟨i - 1, by omega⟩
      refine ⟨j, by omega, ?_⟩
      rw [show k + 1 + j = k + (j + 1) from by omega]
      exact hfree
    · have hcf : used.contains (base ++ "-" ++ natRepr k) = false := by
        cases hb : used.contains (base ++ "-" ++ natRepr k) with
        | false => rfl
        | true => exact absurd hb hck
      exact ⟨base ++ "-" ++ natRepr k, by rw [hunf, if_neg hck], hcf⟩

theorem generate_slug_fresh (text : String) (used : List String) :
    used.contains (generate_slug text used) = false := by
  have hg : generate_slug text used =
      if used.contains (slugCore text) = true then
        (searchFreeF (slugCore text) used (used.length + 1) 2).getD
          (slugCore text ++ "-overflow")
      else slugCore text := rfl
  rw [hg]
  by_cases h : used.contains (slugCore text) = true
  · rw [if_pos h]
    obtain ⟨i, hi, hfree⟩ := exists_free (slugCore text) used
    obtain ⟨c, hc, hcfree⟩ :=
      searchFreeF_some (slugCore text) used (used.length + 1) 2 ⟨i, hi, hfree⟩
    rw [hc]
    exact hcfree
  · rw [if_neg h]
    cases hb : used.contains (slugCore text) with
    | false => rfl
    | true => exact absurd hb h

theorem not_mem_of_contains_false {l : List String} {s : String}
    (h : l.contains s = false) : ¬ s ∈ l := by
  intro hmem
  have := List.elem_eq_true_of_mem hmem
  rw [show l.contains s = List.elem s l from rfl, this] at h
  exact Bool.noConfusion h

theorem chapterIdsGo_spec : ∀ (texts used : List String),
    (∀ s ∈ chapterIdsGo texts used, ¬ s ∈ used) ∧ (chapterIdsGo texts used).Nodup := by
  intro texts
  induction texts with
  | nil =>
    intro used
    exact ⟨by intro s hs; exact absurd hs (List.not_mem_nil s), List.nodup_nil⟩
  | cons t ts ih =>
    intro used
    have hunf : chapterIdsGo (t :: ts) used =
        generate_slug t used :: chapterIdsGo ts (used ++ [generate_slug t used]) := rfl
    obtain ⟨hnotin, hnodup⟩ := ih (used ++ [generate_slug t used])
    have hfresh : ¬ generate_slug t used ∈ used :=
      not_mem_of_contains_false (generate_slug_fresh t used)
    rw [hunf]
    constructor
    · intro s hs
      rcases List.mem_cons.mp hs with rfl | hmem
      · exact hfresh
      · intro hin
        exact hnotin s hmem (List.mem_append_left _ hin)
    · refine List.nodup_cons.mpr ⟨?_, hnodup⟩
      intro hin
      exact hnotin _ hin (List.mem_append_right _ (List.mem_singleton.mpr rfl))

/-- C4: false as stated for the whole site.  `used_ids` is a local of each
`process_chapter` call, so deduplication happens only within one chapter:
two chapters whose sole heading is `Intro` both emit the id `intro`, a
cross-chapter duplicate. -/
theorem c4_unique_ids_counterexample :
    processCorpusIds [["Intro"], ["Intro"]] = [["intro"], ["intro"]] ∧
    ((processCorpusIds [["Intro"], ["Intro"]]).getD 0 []).getD 0 "" =
      ((processCorpusIds [["Intro"], ["Intro"]]).getD 1 []).getD 0 "" := by
  decide

/-- C4 (amended): within a single chapter the emitted heading ids are
pairwise distinct — each slug is disambiguated against the ids already
used in that chapter (numeric suffixes from 2) — and a whole run processes
every chapter independently with its own fresh `used_ids` set, so
uniqueness holds per chapter only. -/
theorem c4_unique_ids_amended :
    ∀ (texts : List String) (chapters : List (List String)),
      (processChapterIds texts).Nodup ∧
      processCorpusIds chapters = chapters.map processChapterIds := by
  intro texts chapters
  exact ⟨(chapterIdsGo_spec texts []).2, rfl⟩

theorem validateTail_true_iff (html : String) (content : List Char) :
    (validateTail html content).1 = true ↔
      (hasH12 content = true ∧ hasSub "MATH_TOKEN_".data html.data = false ∧
       pyCount "class=\"sidebar\"" html = 1 ∧ pyCount "class=\"top-bar\"" html = 1) := by
  unfold validateTail
  split_ifs with h1 h2 h3 h4
  · simp only [Bool.not_eq_true'] at h1
    simp [h1]
  · simp [h2]
  · simp [h3]
  · simp [h4]
  · have h1' : hasH12 content = true := by
      cases hb : hasH12 content with
      | true => rfl
      | false => exact absurd (by rw [hb]; rfl) h1
    have h2' : hasSub "MATH_TOKEN_".data html.data = false := by
      cases hb : hasSub "MATH_TOKEN_".data html.data with
      | false => rfl
      | true => exact absurd hb h2
    simp [h1', h2', not_not.mp h3, not_not.mp h4]

/-- C5: confirmed (for documents whose content markers are present, so the
content body is the extracted span; C10 covers the marker fallback).  The
safety check passes iff all of: exactly one `doc_content`, content body at
least `MIN_CONTENT_LENGTH`, an `h1`/`h2` heading in the body, no
`MATH_TOKEN_` placeholder, exactly one sidebar, exactly one top-bar; on
failure the chapter keeps its previous file content and on success the new
HTML is written; each chapter in the run's loop is gated independently. -/
theorem c5_safety_gate :
    (∀ (html : String) (content : List Char), markerExtract html = some content →
      ((validate_output_safety html).1 = true ↔
        (pyCount "id=\"doc_content\"" html = 1 ∧
         MIN_CONTENT_LENGTH ≤ content.length ∧
         hasH12 content = true ∧
         hasSub "MATH_TOKEN_".data html.data = false ∧
         pyCount "class=\"sidebar\"" html = 1 ∧
         pyCount "class=\"top-bar\"" html = 1))) ∧
    (∀ orig newHtml : String, (validate_output_safety newHtml).1 = false →
      chapterGate orig newHtml = orig) ∧
    (∀ orig newHtml : String, (validate_output_safety newHtml).1 = true →
      chapterGate orig newHtml = newHtml) ∧
    (∀ (l1 l2 : List (String × String)) (p : String × String),
      processChapters (l1 ++ p :: l2) =
        processChapters l1 ++ chapterGate p.1 p.2 :: processChapters l2) := by
  refine ⟨?_, ?_, ?_, ?_⟩
  · intro html content hm
    by_cases h1 : pyCount "id=\"doc_content\"" html = 1
    · have e : validate_output_safety html =
          if content.length < MIN_CONTENT_LENGTH then (false, "Content too short")
          else validateTail html content := by
        unfold validate_output_safety
        rw [if_neg (fun hc => hc h1), hm]
      rw [e]
      by_cases h2 : content.length < MIN_CONTENT_LENGTH
      · rw [if_pos h2]
        constructor
        · intro h
          exact Bool.noConfusion h
        · rintro ⟨-, hlen, -⟩
          exact absurd hlen (not_le.mpr h2)
      · rw [if_neg h2, validateTail_true_iff]
        constructor
        · intro ht
          exact ⟨h1, Nat.le_of_not_lt h2, ht.1, ht.2.1, ht.2.2.1, ht.2.2.2⟩
        · rintro ⟨-, -, ha, hb, hc, hd⟩
          exact ⟨ha, hb, hc, hd⟩
    · have e : validate_output_safety html = (false, "Invalid doc_content count") := by
        unfold validate_output_safety
        rw [if_pos h1]
      rw [e]
      constructor
      · intro h
        exact Bool.noConfusion h
      · rintro ⟨hc, -⟩
        exact absurd hc h1
  · intro orig newHtml h
    rw [chapterGate, if_neg (by rw [h]; exact Bool.false_ne_true)]
  · intro orig newHtml h
    rw [chapterGate, if_pos h]
  · intro l1 l2 p
    simp [processChapters]

/-- C5 witness: a marker-bearing document whose body `hi` is too short, so
the check characterisation applies and the gate keeps the old file. -/
theorem c5_safety_gate_witness :
    ((validate_output_safety
        "<a id=\"doc_content\"><!-- content-start -->hi<!-- content-end -->").1 = true ↔
      (pyCount "id=\"doc_content\""
          "<a id=\"doc_content\"><!-- content-start -->hi<!-- content-end -->" = 1 ∧
       MIN_CONTENT_LENGTH ≤ "hi".data.length ∧
       hasH12 "hi".data = true ∧
       hasSub "MATH_TOKEN_".data
          "<a id=\"doc_content\"><!-- content-start -->hi<!-- content-end -->".data = false ∧
       pyCount "class=\"sidebar\""
          "<a id=\"doc_content\"><!-- content-start -->hi<!-- content-end -->" = 1 ∧
       pyCount "class=\"top-bar\""
          "<a id=\"doc_content\"><!-- content-start -->hi<!-- content-end -->" = 1)) ∧
    chapterGate "OLD" "<a id=\"doc_content\"><!-- content-start -->hi<!-- content-end -->" =
      "OLD" :=
  ⟨c5_safety_gate.1 "<a id=\"doc_content\"><!-- content-start -->hi<!-- content-end -->"
      "hi".data (by decide),
   c5_safety_gate.2.1 "OLD"
      "<a id=\"doc_content\"><!-- content-start -->hi<!-- content-end -->" (by decide)⟩

/-- C7: confirmed.  The concrete scenario: `href="#0_smith2020"` with the
index mapping `smith2020` to `12` is rewritten to
`bibliography.html#bib-smith2020` and displays `12`; in general a key whose
normalised form is in the index gets that entry's number (with the original
brackets), and a key absent from the index keeps its original displayed
number. -/
theorem c7_citations :
    cite_repl "#0_smith2020" = "bibliography.html#bib-smith2020" ∧
    cite_number_repl [("smith2020", "12")] "smith2020" false "5" false =
      ("bibliography.html#bib-smith2020", "12") ∧
    (∀ (bibMap : List (String × String)) (key : String) (bo : Bool) (num : String)
      (bc : Bool) (newNum : String),
      List.lookup (stripDigitsAt key) bibMap = some newNum →
      cite_number_repl bibMap key bo num bc =
        ("bibliography.html#bib-" ++ stripDigitsAt key,
          (if bo then "[" else "") ++ newNum ++ (if bc then "]" else ""))) ∧
    (∀ (bibMap : List (String × String)) (key : String) (bo : Bool) (num : String)
      (bc : Bool),
      List.lookup (stripDigitsAt key) bibMap = none →
      cite_number_repl bibMap key bo num bc =
        ("bibliography.html#bib-" ++ key,
          (if bo then "[" else "") ++ num ++ (if bc then "]" else ""))) := by
  refine ⟨by decide, by decide, ?_, ?_⟩
  · intro bibMap key bo num bc newNum hlk
    simp only [cite_number_repl]
    rw [hlk]
  · intro bibMap key bo num bc hlk
    simp only [cite_number_repl]
    rw [hlk]

/-- C7 witness: a key carrying the `<digits>@` artefact resolves through
its stripped form. -/
theorem c7_citations_witness :
    cite_number_repl [("smith2020", "12")] "3@smith2020" true "7" true =
      ("bibliography.html#bib-" ++ stripDigitsAt "3@smith2020",
        (if true then "[" else "") ++ "12" ++ (if true then "]" else "")) :=
  c7_citations.2.2.1 [("smith2020", "12")] "3@smith2020" true "7" true "12" (by decide)

/-- C10: confirmed.  When the `doc_content` count check passes but no
content-start/content-end pair is found, validation does not reject for
the missing markers: it instead demands at least 5000 characters of total
HTML and runs the heading and remaining checks against the whole
document. -/
theorem c10_marker_fallback (html : String)
    (hcount : pyCount "id=\"doc_content\"" html = 1)
    (hnom : markerExtract html = none) :
    (validate_output_safety html).1 = true ↔
      (5000 ≤ html.data.length ∧ hasH12 html.data = true ∧
       hasSub "MATH_TOKEN_".data html.data = false ∧
       pyCount "class=\"sidebar\"" html = 1 ∧
       pyCount "class=\"top-bar\"" html = 1) := by
  have e : validate_output_safety html =
      if html.data.length < 5000 then (false, "Total HTML too short")
      else validateTail html html.data := by
    unfold validate_output_safety
    rw [if_neg (fun hc => hc hcount), hnom]
  rw [e]
  by_cases h2 : html.data.length < 5000
  · rw [if_pos h2]
    constructor
    · intro h
      exact Bool.noConfusion h
    · rintro ⟨hlen, -⟩
      exact absurd hlen (not_le.mpr h2)
  · rw [if_neg h2, validateTail_true_iff]
    constructor
    · intro ht
      exact ⟨Nat.le_of_not_lt h2, ht.1, ht.2.1, ht.2.2.1, ht.2.2.2⟩
    · rintro ⟨-, ha, hb, hc, hd⟩
      exact ⟨ha, hb, hc, hd⟩

/-- C10 witness: a short marker-free document with exactly one
`doc_content`; both sides of the characterisation are false. -/
theorem c10_marker_fallback_witness :
    (validate_output_safety "x id=\"doc_content\" y").1 = true ↔
      (5000 ≤ "x id=\"doc_content\" y".data.length ∧
       hasH12 "x id=\"doc_content\" y".data = true ∧
       hasSub "MATH_TOKEN_".data "x id=\"doc_content\" y".data = false ∧
       pyCount "class=\"sidebar\"" "x id=\"doc_content\" y" = 1 ∧
       pyCount "class=\"top-bar\"" "x id=\"doc_content\" y" = 1) :=
  c10_marker_fallback "x id=\"doc_content\" y" (by decide) (by decide)

end DL4CV
